import Mathlib

/-!
Verification of the path-manipulation core (POSIX and Windows grammars) of
the repository.  The repository ships only the type declarations of the two
grammar cores (`posix.d.ts`, `win32.d.ts`), the dispatcher (`mod.js`) and the
separator constants (`separator.js`); the function bodies are modelled from
the specification, as noted on each definition.

Paths are modelled as `List Char`; all definitions are executable.
-/

namespace PathCore

/-- Error taxonomy of the library (spec section 7). -/
inductive PathError where
  | InvalidUrlScheme
  | NotAbsolutePath
  | CrossDeviceRelative
  | InvalidDriveLetter
deriving DecidableEq, Repr

/-- Separator predicate of the POSIX grammar: only `/`. -/
def isPosixSep (c : Char) : Bool := c = '/'

/-- Separator predicate of the Windows grammar: both `\` and `/` are accepted
on input. -/
def isWinSep (c : Char) : Bool := c = '\\' || c = '/'

/-- An ASCII letter, the only valid drive designator on Windows. -/
def isDriveL (c : Char) : Bool :=
  ('A' ≤ c && c ≤ 'Z') || ('a' ≤ c && c ≤ 'z')

/-- The `..` segment. -/
def dotdot : List Char := ['.', '.']

/-- Split a character list at every separator, keeping (possibly empty)
chunks between separators.  Structural helper for `splitSegs`. -/
def splitRaw (isSep : Char → Bool) : List Char → List (List Char)
  | [] => [[]]
  | c :: cs =>
    let r := splitRaw isSep cs
    if isSep c then [] :: r
    else
      match r with
      | [] => [[c]]
      | s :: rest => (c :: s) :: rest

/-- Modelled from the spec: the segment walk of the shared segment normalizer
(spec 4.1) splits the raw path on one-or-more separator characters, so the
segment list contains exactly the maximal separator-free non-empty runs. -/
def splitSegs (isSep : Char → Bool) (l : List Char) : List (List Char) :=
  (splitRaw isSep l).filter (fun s => decide (s ≠ []))

/-- Join segments with a single canonical separator character. -/
def joinSep (sepc : Char) : List (List Char) → List Char
  | [] => []
  | [s] => s
  | s :: ss => s ++ sepc :: joinSep sepc ss

/-- Modelled from the spec: one step of the shared segment normalizer
(spec 4.1): `.` and empty segments are dropped; `..` pops the last retained
segment unless the retained list is empty or ends in `..`, in which case it
is appended only when `allowAboveRoot`; any other segment is appended. -/
def stepSeg (allowAboveRoot : Bool) (acc : List (List Char)) (s : List Char) :
    List (List Char) :=
  if s = [] ∨ s = ['.'] then acc
  else if s = dotdot then
    match acc.getLast? with
    | none => if allowAboveRoot then [dotdot] else []
    | some t =>
      if t = dotdot then (if allowAboveRoot then acc ++ [dotdot] else acc)
      else acc.dropLast
  else acc ++ [s]

/-- Modelled from the spec: the shared segment normalizer (spec 4.1), folded
over the segment list. -/
def normSegs (allowAboveRoot : Bool) (segs : List (List Char)) :
    List (List Char) :=
  segs.foldl (stepSeg allowAboveRoot) []

end PathCore

namespace posix

open PathCore

/-- Modelled from the spec: POSIX `isAbsolute` (the body `posix.js` is not in
the source tree; spec 4.2: true iff the first character is `/`). -/
def isAbsolute (p : List Char) : Bool :=
  match p with
  | [] => false
  | c :: _ => c = '/'

/-- Re-assembly step of POSIX `normalize` (spec 4.2): `.`-substitution for an
empty relative result, trailing-separator re-application, root
re-prefixing. -/
def assemble (abs trail : Bool) (segs : List (List Char)) : List Char :=
  let body := joinSep '/' segs
  let body1 := if body = [] ∧ abs = false then ['.'] else body
  let body2 := if body1 ≠ [] ∧ trail = true then body1 ++ ['/'] else body1
  if abs then '/' :: body2 else body2

/-- Modelled from the spec: POSIX `normalize` (spec 4.2): detect a leading
`/` (absolute flag) and trailing `/`; run the segment normalizer with
`allowAboveRoot = !isAbsolute`; re-prefix `/` if absolute; empty non-absolute
result is `.`; re-append `/` when the original ended in a separator. -/
def normalize (p : List Char) : List Char :=
  if p = [] then ['.']
  else assemble (isAbsolute p) (decide (p.getLast? = some '/'))
    (normSegs (!isAbsolute p) (splitSegs isPosixSep p))

end posix

namespace win32

open PathCore

/-- Modelled from the spec: Windows `isAbsolute` (spec 4.3): separator-first
paths and drive-rooted paths `X:` followed by a separator are absolute; a
bare drive-relative `X:` is not. -/
def isAbsolute (p : List Char) : Bool :=
  match p with
  | [] => false
  | c :: rest =>
    if isWinSep c then true
    else
      match rest with
      | ':' :: s :: _ => isDriveL c && isWinSep s
      | _ => false

/-- Modelled from the spec: Windows root detection (spec 4.3, 9), a state
machine over the first characters recognizing drive-letter roots (`C:`
optionally followed by a separator), UNC roots (`\\server\share`) and
separator-only roots.  Returns the device (drive `C:`, or a UNC device
canonicalized to backslashes), the absolute flag, and the remaining
characters after the consumed root. -/
def parseWinRoot : List Char → Option (List Char) × Bool × List Char
  | [] => (none, false, [])
  | c :: rest =>
    if isWinSep c then
      match rest with
      | [] => (none, true, [])
      | c2 :: rest2 =>
        if isWinSep c2 then
          let server := rest2.takeWhile (fun x => !isWinSep x)
          let afterServer := rest2.dropWhile (fun x => !isWinSep x)
          if server = [] then (none, true, rest)
          else
            match afterServer with
            | [] => (none, true, rest)
            | _ :: _ =>
              let afterSeps := afterServer.dropWhile isWinSep
              let share := afterSeps.takeWhile (fun x => !isWinSep x)
              if share = [] then (none, true, rest)
              else
                (some ('\\' :: '\\' :: (server ++ '\\' :: share)), true,
                  afterSeps.dropWhile (fun x => !isWinSep x))
        else (none, true, rest)
    else
      match rest with
      | ':' :: rest2 =>
        if isDriveL c then
          (some [c, ':'],
            (match rest2 with
             | s :: _ => isWinSep s
             | [] => false),
            rest2)
        else (none, false, c :: rest)
      | _ => (none, false, c :: rest)

/-- Re-assembly step of Windows `normalize` (spec 4.3): `.`-substitution for
an empty relative result, trailing-separator re-application, then
device/root re-prefixing with the canonical `\` separator. -/
def assemble (device : Option (List Char)) (abs trail : Bool)
    (segs : List (List Char)) : List Char :=
  let tail := joinSep '\\' segs
  let tail1 := if tail = [] ∧ abs = false then ['.'] else tail
  let tail2 := if tail1 ≠ [] ∧ trail = true then tail1 ++ ['\\'] else tail1
  match device with
  | none => if abs then '\\' :: tail2 else tail2
  | some d => if abs then d ++ '\\' :: tail2 else d ++ tail2

/-- Whether the last character is a separator of the grammar. -/
def lastIsSep (p : List Char) : Bool :=
  match p.getLast? with
  | some c => isWinSep c
  | none => false

/-- Modelled from the spec: Windows `normalize` (spec 4.3): parse the root
(drive, UNC or separator-only), run the shared segment normalizer on the
remainder with `allowAboveRoot = !isAbsolute`, and re-assemble with the
canonical `\` separator, preserving the device prefix. -/
def normalize (p : List Char) : List Char :=
  if p = [] then ['.']
  else
    let r := parseWinRoot p
    assemble r.1 r.2.1 (lastIsSep p) (normSegs (!r.2.1) (splitSegs isWinSep r.2.2))

end win32

namespace PathCore

/-- Modelled from the spec: separator translation used by the Windows URL
conversions (spec 4.3): `\` becomes the URL separator `/`. -/
def mapTo (c : Char) : Char := if c = '\\' then '/' else c

/-- Modelled from the spec: separator translation used by the Windows URL
conversions (spec 4.3): the URL separator `/` becomes `\`. -/
def mapBack (c : Char) : Char := if c = '/' then '\\' else c

/-- Hexadecimal digit character of a value below 16. -/
def hexDig (n : Nat) : Char :=
  if n < 10 then Char.ofNat (48 + n) else Char.ofNat (55 + n)

/-- Whether a character is a hexadecimal digit. -/
def isHexDigit (c : Char) : Bool :=
  decide (('0' ≤ c ∧ c ≤ '9') ∨ ('A' ≤ c ∧ c ≤ 'F') ∨ ('a' ≤ c ∧ c ≤ 'f'))

/-- Value of a hexadecimal digit character. -/
def hexVal (c : Char) : Nat :=
  if '0' ≤ c ∧ c ≤ '9' then c.toNat - 48
  else if 'A' ≤ c ∧ c ≤ 'F' then c.toNat - 55
  else if 'a' ≤ c ∧ c ≤ 'f' then c.toNat - 87
  else 0

/-- Modelled from the spec: the characters percent-encoded by `toFileUrl`
(spec 4.2, 4.3): the percent sign itself, the backslash, whitespace and the
URL-reserved `#`/`?`, and control characters. -/
def needsEnc (c : Char) : Bool :=
  decide (c = '%' ∨ c = '\\' ∨ c = ' ' ∨ c = '#' ∨ c = '?' ∨ c.toNat < 32)

/-- Percent-encoding of one character. -/
def encChar (c : Char) : List Char :=
  if needsEnc c then ['%', hexDig (c.toNat / 16), hexDig (c.toNat % 16)]
  else [c]

/-- Modelled from the spec: percent-encoding of a URL path component
(spec 4.2 `toFileUrl`). -/
def percentEncode (l : List Char) : List Char :=
  (l.map encChar).flatten

/-- Modelled from the spec: percent-decoding of a URL path component
(spec 4.2 `fromFileUrl`): a `%` followed by two hexadecimal digits decodes
to the denoted character; a malformed escape passes through unchanged. -/
def percentDecode : List Char → List Char
  | [] => []
  | c :: rest =>
    if c = '%' then
      match rest with
      | h1 :: h2 :: rest2 =>
        if isHexDigit h1 && isHexDigit h2 then
          Char.ofNat (16 * hexVal h1 + hexVal h2) :: percentDecode rest2
        else c :: h1 :: h2 :: percentDecode rest2
      | _ => c :: rest
    else c :: percentDecode rest

/-- A file URL, reduced to the parts the path conversions use: scheme,
authority hostname, and path component. -/
structure Url where
  scheme : List Char
  host : List Char
  pathname : List Char
deriving DecidableEq, Repr

end PathCore

namespace posix

open PathCore

/-- Modelled from the spec: POSIX `join` (spec 4.2): filter out empty
segments, concatenate with `/`, pass through `normalize`; zero retained
segments yield `.`. -/
def join (xs : List (List Char)) : List Char :=
  if xs.filter (fun s => decide (s ≠ [])) = [] then ['.']
  else normalize (joinSep '/' (xs.filter (fun s => decide (s ≠ []))))

/-- Modelled from the spec: the base name of a POSIX path (spec 4.2
`basename` without suffix stripping): trim trailing separators, take the
substring after the last remaining separator. -/
def baseOf (p : List Char) : List Char :=
  ((p.reverse.dropWhile isPosixSep).takeWhile (fun c => !isPosixSep c)).reverse

/-- Modelled from the spec: POSIX `extname` (spec 4.2): isolate the base
name; the extension starts at the last `.` of the base unless that dot is
the base's first character or the base is `..`; otherwise it is empty. -/
def extname (p : List Char) : List Char :=
  if baseOf p = dotdot then []
  else if '.' ∈ baseOf p then
    if (baseOf p).length
        - ((baseOf p).reverse.takeWhile (fun c => decide (c ≠ '.'))).length - 1 = 0
      then []
    else '.' :: ((baseOf p).reverse.takeWhile (fun c => decide (c ≠ '.'))).reverse
  else []

/-- Modelled from the spec: POSIX `fromFileUrl` (spec 4.2, 7): requires
scheme `file`, otherwise `InvalidUrlScheme`; percent-decodes the URL path
component. -/
def fromFileUrl (u : Url) : Except PathError (List Char) :=
  if u.scheme = "file".data then Except.ok (percentDecode u.pathname)
  else Except.error PathError.InvalidUrlScheme

/-- Modelled from the spec: POSIX `toFileUrl` (spec 4.2, 7): requires an
absolute path, otherwise `NotAbsolutePath`; percent-encodes reserved
characters into the URL path; authority empty. -/
def toFileUrl (p : List Char) : Except PathError Url :=
  if isAbsolute p then Except.ok ⟨"file".data, [], percentEncode p⟩
  else Except.error PathError.NotAbsolutePath

end posix

namespace win32

open PathCore

/-- Modelled from the spec: Windows `join` (spec 4.3, same contract as 4.2):
filter out empty segments, concatenate with `\`, pass through `normalize`;
zero retained segments yield `.`. -/
def join (xs : List (List Char)) : List Char :=
  if xs.filter (fun s => decide (s ≠ [])) = [] then ['.']
  else normalize (joinSep '\\' (xs.filter (fun s => decide (s ≠ []))))

/-- Modelled from the spec: URL path component built from a Windows path
(spec 4.3 `toFileUrl`): separators become `/`, reserved characters are
percent-encoded. -/
def toUrlPath (p : List Char) : List Char :=
  percentEncode (p.map mapTo)

/-- Modelled from the spec: the hostname lookahead of Windows `toFileUrl`
(spec 4.3): the characters after the candidate hostname must start with a
separator that is followed by a non-separator or the end. -/
def uncLook : List Char → Bool
  | [] => false
  | a :: after2 =>
    isWinSep a &&
      (match after2 with
       | [] => true
       | b :: _ => !isWinSep b)

/-- Modelled from the spec: Windows `toFileUrl` (spec 4.3, 7): requires an
absolute path; a `\\host\share` shape splits into hostname and URL path;
other shapes keep the whole path as the URL path. -/
def toFileUrl (p : List Char) : Except PathError Url :=
  if isAbsolute p = false then Except.error PathError.NotAbsolutePath
  else
    match p with
    | s1 :: s2 :: rest =>
      if isWinSep s1 && isWinSep s2 then
        if uncLook (rest.dropWhile (fun c => !isWinSep c))
            && decide (rest.takeWhile (fun c => !isWinSep c) ≠ []) then
          Except.ok ⟨"file".data, rest.takeWhile (fun c => !isWinSep c),
            toUrlPath (rest.dropWhile (fun c => !isWinSep c))⟩
        else Except.ok ⟨"file".data, [], toUrlPath p⟩
      else Except.ok ⟨"file".data, [], toUrlPath p⟩
    | _ => Except.ok ⟨"file".data, [], toUrlPath p⟩

/-- Modelled from the spec: the drive-segment validation of Windows
`fromFileUrl` (spec 4.3, 7): leading backslashes before a drive root are
stripped; a drive-shaped root segment whose designator is not an ASCII
letter is rejected with `InvalidDriveLetter`. -/
def driveCheck (p : List Char) : Except PathError (List Char) :=
  match p.dropWhile (fun c => decide (c = '\\')) with
  | a :: ':' :: rest2 =>
    if rest2 = [] ∨ rest2.head? = some '\\' then
      if isDriveL a then Except.ok (a :: ':' :: rest2)
      else Except.error PathError.InvalidDriveLetter
    else Except.ok p
  | _ => Except.ok p

/-- Modelled from the spec: Windows `fromFileUrl` (spec 4.3, 7): requires
scheme `file`, otherwise `InvalidUrlScheme`; URL separators become `\`, the
path is percent-decoded and the drive segment validated; a non-empty
hostname yields a UNC path. -/
def fromFileUrl (u : Url) : Except PathError (List Char) :=
  if u.scheme = "file".data then
    match driveCheck (percentDecode (u.pathname.map mapBack)) with
    | Except.error e => Except.error e
    | Except.ok q =>
      if u.host = [] then Except.ok q
      else Except.ok ('\\' :: '\\' :: (u.host ++ q))
  else Except.error PathError.InvalidUrlScheme

/-- Lower-cased device, for the case-insensitive device comparison of
`resolve` and `relative` (spec 4.3). -/
def lowerDev (d : Option (List Char)) : List Char :=
  (d.getD []).map Char.toLower

/-- Modelled from the spec: the right-to-left walk of Windows `resolve`
(spec 4.2, 4.3) over the reversed segment list: it stops once a device and
an absolute root are found; a segment with a device differing
case-insensitively from the accumulated one is skipped; otherwise its
remainder is prepended to the accumulated tail until a root is reached. -/
def resolveGo (dev : Option (List Char)) (ab : Bool) (tl : List Char) :
    List (List Char) → Option (List Char) × Bool × List Char
  | [] => (dev, ab, tl)
  | p :: rest =>
    if ab = true ∧ dev ≠ none then (dev, ab, tl)
    else if p = [] then resolveGo dev ab tl rest
    else if (parseWinRoot p).1 ≠ none ∧ dev ≠ none ∧
        lowerDev (parseWinRoot p).1 ≠ lowerDev dev then
      resolveGo dev ab tl rest
    else if ab then
      resolveGo (if dev = none then (parseWinRoot p).1 else dev) ab tl rest
    else
      resolveGo (if dev = none then (parseWinRoot p).1 else dev)
        (parseWinRoot p).2.1 ((parseWinRoot p).2.2 ++ '\\' :: tl) rest

/-- Modelled from the spec: Windows `resolve` (spec 4.2, 4.3): walk the
segments right-to-left accumulating device, root and tail, then normalize
the tail and re-prefix device and root; an empty result is `.`. -/
def resolve (xs : List (List Char)) : List Char :=
  let r := resolveGo none false [] xs.reverse
  let tl := joinSep '\\' (normSegs (!r.2.1) (splitSegs isWinSep r.2.2))
  let out := (r.1.getD []) ++ (if r.2.1 then '\\' :: tl else tl)
  if out = [] then ['.'] else out

/-- Modelled from the spec: length of the longest common segment run of the
two resolved paths, compared case-insensitively (spec 4.3). -/
def commonLen : List (List Char) → List (List Char) → Nat
  | a :: as, b :: bs =>
    if a.map Char.toLower = b.map Char.toLower then commonLen as bs + 1
    else 0
  | _, _ => 0

/-- Modelled from the spec: Windows `relative` (spec 4.2, 4.3, 7): resolve
both arguments; identical resolutions yield the empty path; different
devices (case-insensitive comparison) are a fatal `CrossDeviceRelative`
failure; otherwise emit `..` for each remaining `from` segment past the
common segment run, followed by the remaining `to` segments. -/
def relative (src dst : List Char) : Except PathError (List Char) :=
  if resolve [src] = resolve [dst] then Except.ok []
  else if lowerDev (parseWinRoot (resolve [src])).1
      ≠ lowerDev (parseWinRoot (resolve [dst])).1 then
    Except.error PathError.CrossDeviceRelative
  else
    Except.ok (joinSep '\\'
      (List.replicate
          ((splitSegs isWinSep (parseWinRoot (resolve [src])).2.2).length
            - commonLen (splitSegs isWinSep (parseWinRoot (resolve [src])).2.2)
                (splitSegs isWinSep (parseWinRoot (resolve [dst])).2.2))
          dotdot
        ++ (splitSegs isWinSep (parseWinRoot (resolve [dst])).2.2).drop
            (commonLen (splitSegs isWinSep (parseWinRoot (resolve [src])).2.2)
              (splitSegs isWinSep (parseWinRoot (resolve [dst])).2.2))))

end win32

/-- The operation record of one grammar core, as selected and re-exported by
the facade (`mod.js`, `src/unnamed/part_000`). -/
structure PathApi where
  sep : List Char
  delimiter : List Char
  normalize : List Char → List Char
  isAbsolute : List Char → Bool
  join : List (List Char) → List Char
  fromFileUrl : PathCore.Url → Except PathCore.PathError (List Char)
  toFileUrl : List Char → Except PathCore.PathError PathCore.Url

/-- The POSIX grammar core as an operation record (`posix.d.ts`: separator
`/`, delimiter `:`). -/
def posixApi : PathApi :=
  ⟨['/'], [':'], posix.normalize, posix.isAbsolute, posix.join,
    posix.fromFileUrl, posix.toFileUrl⟩

/-- The Windows grammar core as an operation record (`win32.d.ts`: separator
`\`, delimiter `;`). -/
def win32Api : PathApi :=
  ⟨['\\'], [';'], win32.normalize, win32.isAbsolute, win32.join,
    win32.fromFileUrl, win32.toFileUrl⟩

/-- The facade of `mod.js` (`src/unnamed/part_000` line 26):
`const path = isWindows ? _win32 : _posix`. -/
def pathFacade (isWindows : Bool) : PathApi :=
  if isWindows then win32Api else posixApi

/-- The separator constant of `separator.js` (`src/unnamed/part_001`):
`SEP = isWindows ? "\\" : "/"`. -/
def SEP (isWindows : Bool) : List Char :=
  if isWindows then ['\\'] else ['/']

/-- The unconditional re-export `export const posix = _posix` of `mod.js`,
as a function of the platform flag. -/
def exportedPosix (_isWindows : Bool) : PathApi := posixApi

/-- The unconditional re-export `export const win32 = _win32` of `mod.js`,
as a function of the platform flag. -/
def exportedWin32 (_isWindows : Bool) : PathApi := win32Api

section SplitLemmas

open PathCore

theorem splitRaw_ne_nil (isSep : Char → Bool) (l : List Char) :
    splitRaw isSep l ≠ [] := by
  cases l with
  | nil => simp [splitRaw]
  | cons c cs =>
    simp only [splitRaw]
    by_cases h : isSep c
    · simp [h]
    · simp only [h]
      cases splitRaw isSep cs with
      | nil => simp
      | cons s rest => simp

theorem splitRaw_cons_sep {isSep : Char → Bool} {c : Char} (h : isSep c = true)
    (cs : List Char) : splitRaw isSep (c :: cs) = [] :: splitRaw isSep cs := by
  simp [splitRaw, h]

theorem splitSegs_nil (isSep : Char → Bool) : splitSegs isSep [] = [] := by
  simp [splitSegs, splitRaw]

theorem splitSegs_cons_sep {isSep : Char → Bool} {c : Char}
    (h : isSep c = true) (cs : List Char) :
    splitSegs isSep (c :: cs) = splitSegs isSep cs := by
  simp [splitSegs, splitRaw_cons_sep h]

/-- Prepending a separator-free run to `rest` prepends it to the head chunk. -/
theorem splitRaw_append_run {isSep : Char → Bool} :
    ∀ (seg : List Char), (∀ c ∈ seg, isSep c = false) →
    ∀ (rest : List Char) (h : List Char) (t : List (List Char)),
      splitRaw isSep rest = h :: t →
      splitRaw isSep (seg ++ rest) = (seg ++ h) :: t := by
  intro seg
  induction seg with
  | nil => intro _ rest h t hr; simpa using hr
  | cons a s ih =>
    intro hfree rest h t hr
    have ha : isSep a = false := hfree a (by simp)
    have hs : ∀ c ∈ s, isSep c = false := fun c hc => hfree c (by simp [hc])
    have ihr := ih hs rest h t hr
    simp only [List.cons_append, splitRaw, ihr, ha]
    simp [ihr]

theorem dropWhile_head_false {α : Type} {p : α → Bool} {xs : List α} {c : α}
    {cs : List α} (h : xs.dropWhile p = c :: cs) : p c = false := by
  have w : xs.dropWhile p ≠ [] := by simp [h]
  have hh := List.head_dropWhile_not p xs w
  have : (xs.dropWhile p).head w = c := by
    have := h
    revert w hh
    rw [this]
    intro w hh
    rfl
  rwa [this] at hh

/-- A non-empty separator-free run followed by a separator boundary is the
first segment. -/
theorem splitSegs_run {isSep : Char → Bool} (seg : List Char)
    (hne : seg ≠ []) (hfree : ∀ c ∈ seg, isSep c = false) (rest : List Char)
    (hrest : rest = [] ∨ ∃ c cs, rest = c :: cs ∧ isSep c = true) :
    splitSegs isSep (seg ++ rest) = seg :: splitSegs isSep rest := by
  rcases hrest with h | ⟨c, cs, rfl, hc⟩
  · subst h
    have h2 := splitRaw_append_run seg hfree [] [] [] (by simp [splitRaw])
    simp only [List.append_nil] at h2
    simp [splitSegs, h2, hne, splitRaw]
  · obtain ⟨h, t, hr⟩ : ∃ h t, splitRaw isSep cs = h :: t := by
      cases hcs : splitRaw isSep cs with
      | nil => exact absurd hcs (splitRaw_ne_nil isSep cs)
      | cons h t => exact ⟨h, t, rfl⟩
    have hrc : splitRaw isSep (c :: cs) = [] :: h :: t := by
      simp [splitRaw_cons_sep hc, hr]
    have := splitRaw_append_run seg hfree (c :: cs) [] (h :: t) hrc
    simp [splitSegs, this, hne, hrc]

/-- Splitting recovers the segments joined by a separator character. -/
theorem splitSegs_joinSep {isSep : Char → Bool} {sepc : Char}
    (hsep : isSep sepc = true) :
    ∀ (segs : List (List Char)),
      (∀ s ∈ segs, s ≠ [] ∧ ∀ c ∈ s, isSep c = false) →
      splitSegs isSep (joinSep sepc segs) = segs := by
  intro segs
  induction segs with
  | nil => intro _; simp [joinSep, splitSegs_nil]
  | cons s ss ih =>
    intro hgood
    have hs := hgood s (by simp)
    cases ss with
    | nil =>
      have := splitSegs_run s hs.1 hs.2 [] (Or.inl rfl)
      simpa [joinSep, splitSegs_nil] using this
    | cons s2 ss2 =>
      have hjoin : joinSep sepc (s :: s2 :: ss2) =
          s ++ sepc :: joinSep sepc (s2 :: ss2) := rfl
      rw [hjoin, splitSegs_run s hs.1 hs.2 _ (Or.inr ⟨_, _, rfl, hsep⟩),
        splitSegs_cons_sep hsep,
        ih (fun x hx => hgood x (by simp [hx]))]

/-- A trailing separator does not change the segment list. -/
theorem splitSegs_append_sep {isSep : Char → Bool} {sepc : Char}
    (hsep : isSep sepc = true) :
    ∀ (l : List Char), splitSegs isSep (l ++ [sepc]) = splitSegs isSep l := by
  suffices H : ∀ (n : Nat) (l : List Char), l.length ≤ n →
      splitSegs isSep (l ++ [sepc]) = splitSegs isSep l by
    exact fun l => H l.length l le_rfl
  intro n
  induction n with
  | zero =>
    intro l hl
    have : l = [] := by cases l <;> simp_all
    subst this
    simp [splitSegs_cons_sep hsep, splitSegs_nil]
  | succ n ih =>
    intro l hl
    cases l with
    | nil => simp [splitSegs_cons_sep hsep, splitSegs_nil]
    | cons a xs =>
      by_cases ha : isSep a = true
      · rw [List.cons_append, splitSegs_cons_sep ha, splitSegs_cons_sep ha]
        exact ih xs (by simp at hl; omega)
      · have ha' : isSep a = false := by rwa [Bool.not_eq_true] at ha
        set seg : List Char := a :: xs.takeWhile (fun c => !isSep c) with hseg
        set rest : List Char := xs.dropWhile (fun c => !isSep c) with hrest
        have hdecomp : a :: xs = seg ++ rest := by
          simp [hseg, hrest, List.takeWhile_append_dropWhile]
        have hsegne : seg ≠ [] := by simp [hseg]
        have hsegfree : ∀ c ∈ seg, isSep c = false := by
          intro c hc
          rcases List.mem_cons.mp hc with rfl | hc'
          · exact ha'
          · have := List.mem_takeWhile_imp hc'
            simpa using this
        have hbound : rest = [] ∨ ∃ c cs, rest = c :: cs ∧ isSep c = true := by
          cases hr : rest with
          | nil => exact Or.inl rfl
          | cons c cs =>
            refine Or.inr ⟨c, cs, rfl, ?_⟩
            have := dropWhile_head_false (by rw [hrest] at hr; exact hr)
            simpa using this
        have hb2 : rest ++ [sepc] = [] ∨
            ∃ c cs, rest ++ [sepc] = c :: cs ∧ isSep c = true := by
          rcases hbound with h | ⟨c, cs, hceq, hc⟩
          · rw [h]; exact Or.inr ⟨sepc, [], rfl, hsep⟩
          · exact Or.inr ⟨c, cs ++ [sepc], by simp [hceq], hc⟩
        have hlen : rest.length ≤ n := by
          have : rest.length ≤ xs.length := by
            rw [hrest]; exact (List.dropWhile_sublist _).length_le
          simp at hl; omega
        calc splitSegs isSep (a :: xs ++ [sepc])
            = splitSegs isSep (seg ++ (rest ++ [sepc])) := by
              rw [hdecomp]; simp
          _ = seg :: splitSegs isSep (rest ++ [sepc]) :=
              splitSegs_run seg hsegne hsegfree _ hb2
          _ = seg :: splitSegs isSep rest := by
              rw [ih rest hlen]
          _ = splitSegs isSep (seg ++ rest) :=
              (splitSegs_run seg hsegne hsegfree rest hbound).symm
          _ = splitSegs isSep (a :: xs) := by rw [← hdecomp]

/-- Every chunk produced by `splitSegs` is non-empty and separator-free. -/
theorem splitSegs_good (isSep : Char → Bool) (l : List Char) :
    ∀ s ∈ splitSegs isSep l, s ≠ [] ∧ ∀ c ∈ s, isSep c = false := by
  suffices H : ∀ (n : Nat) (l : List Char), l.length ≤ n →
      ∀ s ∈ splitSegs isSep l, s ≠ [] ∧ ∀ c ∈ s, isSep c = false by
    exact H l.length l le_rfl
  intro n
  induction n with
  | zero =>
    intro l hl
    have : l = [] := by cases l <;> simp_all
    subst this
    simp [splitSegs_nil]
  | succ n ih =>
    intro l hl
    cases l with
    | nil => simp [splitSegs_nil]
    | cons a xs =>
      by_cases ha : isSep a = true
      · rw [splitSegs_cons_sep ha]
        exact ih xs (by simp at hl; omega)
      · have ha' : isSep a = false := by rwa [Bool.not_eq_true] at ha
        set seg : List Char := a :: xs.takeWhile (fun c => !isSep c) with hseg
        set rest : List Char := xs.dropWhile (fun c => !isSep c) with hrest
        have hdecomp : a :: xs = seg ++ rest := by
          simp [hseg, hrest, List.takeWhile_append_dropWhile]
        have hsegne : seg ≠ [] := by simp [hseg]
        have hsegfree : ∀ c ∈ seg, isSep c = false := by
          intro c hc
          rcases List.mem_cons.mp hc with rfl | hc'
          · exact ha'
          · simpa using List.mem_takeWhile_imp hc'
        have hbound : rest = [] ∨ ∃ c cs, rest = c :: cs ∧ isSep c = true := by
          cases hr : rest with
          | nil => exact Or.inl rfl
          | cons c cs =>
            refine Or.inr ⟨c, cs, rfl, ?_⟩
            have := dropWhile_head_false (by rw [hrest] at hr; exact hr)
            simpa using this
        have hlen : rest.length ≤ n := by
          have : rest.length ≤ xs.length := by
            rw [hrest]; exact (List.dropWhile_sublist _).length_le
          simp at hl; omega
        rw [hdecomp, splitSegs_run seg hsegne hsegfree rest hbound]
        intro s hs
        rcases List.mem_cons.mp hs with rfl | hs'
        · exact ⟨hsegne, hsegfree⟩
        · exact ih rest hlen s hs'

end SplitLemmas

section NormLemmas

open PathCore

/-- Invariant of the segment normalizer's retained list: a (possibly empty)
prefix of `..` segments (only when `allowAboveRoot`), followed by ordinary
segments; every retained segment is non-empty, not `.`, and separator-free. -/
def SegInv (isSep : Char → Bool) (aar : Bool) (acc : List (List Char)) : Prop :=
  (∃ k r, acc = List.replicate k dotdot ++ r ∧ (∀ s ∈ r, s ≠ dotdot) ∧
    (aar = false → k = 0)) ∧
  (∀ s ∈ acc, s ≠ [] ∧ s ≠ ['.'] ∧ ∀ c ∈ s, isSep c = false)

theorem segInv_nil (isSep : Char → Bool) (aar : Bool) : SegInv isSep aar [] :=
  ⟨⟨0, [], rfl, by simp, fun _ => rfl⟩, by simp⟩

theorem stepSeg_plain (aar : Bool) (acc : List (List Char)) (s : List Char)
    (h1 : s ≠ []) (h2 : s ≠ ['.']) (h3 : s ≠ dotdot) :
    stepSeg aar acc s = acc ++ [s] := by
  simp [stepSeg, h1, h2, h3]

theorem stepSeg_dotdot_true (j : Nat) :
    stepSeg true (List.replicate j dotdot) dotdot
      = List.replicate (j + 1) dotdot := by
  cases j with
  | zero => simp [stepSeg, dotdot]
  | succ j =>
    have hl : (List.replicate (j + 1) dotdot).getLast? = some dotdot := by
      rw [List.replicate_succ']; exact List.getLast?_concat _
    rw [show List.replicate (j + 1 + 1) dotdot
        = List.replicate (j + 1) dotdot ++ [dotdot] from
      List.replicate_succ' (j + 1) dotdot]
    rw [stepSeg, if_neg (by simp [dotdot]), if_pos rfl, hl]
    dsimp only
    rw [if_pos rfl, if_pos rfl]

theorem foldl_dots_true (k : Nat) : ∀ (j : Nat),
    List.foldl (stepSeg true) (List.replicate j dotdot)
      (List.replicate k dotdot) = List.replicate (j + k) dotdot := by
  induction k with
  | zero => intro j; simp
  | succ k ih =>
    intro j
    rw [List.replicate_succ, List.foldl_cons, stepSeg_dotdot_true j, ih (j + 1)]
    congr 1
    omega

theorem foldl_plain (aar : Bool) :
    ∀ (r acc : List (List Char)),
      (∀ s ∈ r, s ≠ [] ∧ s ≠ ['.'] ∧ s ≠ dotdot) →
      List.foldl (stepSeg aar) acc r = acc ++ r := by
  intro r
  induction r with
  | nil => intro acc _; simp
  | cons s ss ih =>
    intro acc h
    have hs := h s (by simp)
    rw [List.foldl_cons, stepSeg_plain aar acc s hs.1 hs.2.1 hs.2.2,
      ih (acc ++ [s]) (fun x hx => h x (by simp [hx]))]
    simp

/-- A list satisfying the normalizer invariant is a fixed point of the
segment normalizer. -/
theorem normSegs_fixed {isSep : Char → Bool} {aar : Bool}
    {segs : List (List Char)} (hinv : SegInv isSep aar segs) :
    normSegs aar segs = segs := by
  obtain ⟨⟨k, r, hshape, hr, hk⟩, hgood⟩ := hinv
  have hrplain : ∀ s ∈ r, s ≠ [] ∧ s ≠ ['.'] ∧ s ≠ dotdot := by
    intro s hs
    have hg := hgood s (by rw [hshape]; simp [hs])
    exact ⟨hg.1, hg.2.1, hr s hs⟩
  rw [hshape]
  unfold normSegs
  rw [List.foldl_append]
  cases aar with
  | false =>
    rw [hk rfl]
    simp only [List.replicate_zero, List.nil_append, List.foldl_nil]
    rw [foldl_plain false r [] hrplain]
    simp [hk rfl]
  | true =>
    have h0 := foldl_dots_true k 0
    simp only [List.replicate_zero, Nat.zero_add] at h0
    rw [h0, foldl_plain true r _ hrplain]

theorem segInv_getLast_dotdot {isSep : Char → Bool} {aar : Bool}
    {acc : List (List Char)} (hinv : SegInv isSep aar acc)
    (h : acc.getLast? = some dotdot) :
    ∃ k, acc = List.replicate k dotdot ∧ 0 < k := by
  obtain ⟨⟨k, r, hshape, hr, _⟩, _⟩ := hinv
  cases hrr : r with
  | nil =>
    refine ⟨k, by simp [hshape, hrr], ?_⟩
    rcases Nat.eq_zero_or_pos k with hk0 | hk
    · rw [hshape, hrr, hk0] at h; simp at h
    · exact hk
  | cons x xs =>
    exfalso
    have hne : r ≠ [] := by simp [hrr]
    have : acc.getLast? = r.getLast? := by
      rw [hshape, List.getLast?_append]
      cases hgr : r.getLast? with
      | none => exact absurd (List.getLast?_eq_none_iff.mp hgr) hne
      | some y => simp
    rw [this] at h
    exact hr dotdot (List.mem_of_getLast?_eq_some h) rfl

/-- One normalizer step preserves the invariant, for separator-free input. -/
theorem stepSeg_inv {isSep : Char → Bool} {aar : Bool}
    {acc : List (List Char)} {s : List Char} (hdot : isSep '.' = false)
    (hinv : SegInv isSep aar acc) (hs : ∀ c ∈ s, isSep c = false) :
    SegInv isSep aar (stepSeg aar acc s) := by
  by_cases h1 : s = [] ∨ s = ['.']
  · rw [stepSeg, if_pos h1]; exact hinv
  by_cases h2 : s = dotdot
  · rw [stepSeg, if_neg h1, if_pos h2]
    have hddgood : dotdot ≠ [] ∧ dotdot ≠ ['.'] ∧
        ∀ c ∈ dotdot, isSep c = false := by
      refine ⟨by simp [dotdot], by simp [dotdot], ?_⟩
      intro c hc
      have : c = '.' := by
        rcases List.mem_cons.mp hc with h | h
        · exact h
        · simpa [dotdot] using h
      rw [this]; exact hdot
    cases hlast : acc.getLast? with
    | none =>
      have hacc : acc = [] := List.getLast?_eq_none_iff.mp hlast
      dsimp only
      cases aar with
      | true =>
        rw [if_pos rfl]
        exact ⟨⟨1, [], by simp, by simp, by simp⟩, by
          intro x hx
          rcases List.mem_cons.mp hx with rfl | h
          · exact hddgood
          · simp at h⟩
      | false =>
        rw [if_neg (by simp)]
        exact segInv_nil isSep false
    | some t =>
      dsimp only
      by_cases ht : t = dotdot
      · rw [if_pos ht]
        obtain ⟨k, hacc, hkpos⟩ :=
          segInv_getLast_dotdot hinv (by rw [hlast, ht])
        cases aar with
        | true =>
          rw [if_pos rfl]
          refine ⟨⟨k + 1, [], by rw [hacc, List.replicate_succ']; simp,
            by simp, by simp⟩, ?_⟩
          intro x hx
          rw [hacc] at hx
          rcases List.mem_append.mp hx with h | h
          · have := List.eq_of_mem_replicate h
            rw [this]; exact hddgood
          · rcases List.mem_singleton.mp h with rfl
            exact hddgood
        | false =>
          rw [if_neg (by simp)]
          exact hinv
      · rw [if_neg ht]
        obtain ⟨⟨k, r, hshape, hr, hk⟩, hgood⟩ := hinv
        have hrne : r ≠ [] := by
          intro hre
          rw [hre, List.append_nil] at hshape
          rcases Nat.eq_zero_or_pos k with hk0 | hkpos
          · rw [hshape, hk0] at hlast; simp at hlast
          · have : acc.getLast? = some dotdot := by
              rw [hshape]
              obtain ⟨k', rfl⟩ : ∃ k', k = k' + 1 :=
                ⟨k - 1, by omega⟩
              rw [List.replicate_succ']
              exact List.getLast?_concat _
            rw [hlast] at this
            exact ht (by injection this)
        refine ⟨⟨k, r.dropLast, ?_, ?_, hk⟩, ?_⟩
        · rw [hshape, List.dropLast_append_of_ne_nil _ hrne]
        · intro x hx
          exact hr x (List.dropLast_subset r hx)
        · intro x hx
          have : x ∈ acc := by
            rw [hshape] at hx ⊢
            rw [List.dropLast_append_of_ne_nil _ hrne] at hx
            rcases List.mem_append.mp hx with h | h
            · exact List.mem_append.mpr (Or.inl h)
            · exact List.mem_append.mpr (Or.inr (List.dropLast_subset r h))
          exact hgood x this
  · rw [stepSeg, if_neg h1, if_neg h2]
    push_neg at h1
    obtain ⟨⟨k, r, hshape, hr, hk⟩, hgood⟩ := hinv
    refine ⟨⟨k, r ++ [s], by rw [hshape]; simp, ?_, hk⟩, ?_⟩
    · intro x hx
      rcases List.mem_append.mp hx with h | h
      · exact hr x h
      · rcases List.mem_singleton.mp h with rfl
        exact h2
    · intro x hx
      rcases List.mem_append.mp hx with h | h
      · exact hgood x h
      · rcases List.mem_singleton.mp h with rfl
        exact ⟨h1.1, h1.2, hs⟩

/-- The segment normalizer's output satisfies the invariant, for any list of
separator-free input segments. -/
theorem normSegs_inv {isSep : Char → Bool} {aar : Bool}
    (hdot : isSep '.' = false) (segs : List (List Char))
    (hsegs : ∀ s ∈ segs, ∀ c ∈ s, isSep c = false) :
    SegInv isSep aar (normSegs aar segs) := by
  suffices H : ∀ (acc : List (List Char)), SegInv isSep aar acc →
      SegInv isSep aar (segs.foldl (stepSeg aar) acc) from
    H [] (segInv_nil isSep aar)
  induction segs with
  | nil => intro acc h; simpa using h
  | cons s ss ih =>
    intro acc h
    rw [List.foldl_cons]
    exact ih (fun x hx => hsegs x (by simp [hx]))
      _ (stepSeg_inv hdot h (hsegs s (by simp)))

end NormLemmas

section JoinLemmas

open PathCore

theorem joinSep_cons (sepc : Char) (s : List Char) (ss : List (List Char)) :
    joinSep sepc (s :: ss)
      = s ++ (if ss = [] then [] else sepc :: joinSep sepc ss) := by
  cases ss with
  | nil => simp [joinSep]
  | cons s2 ss2 => simp [joinSep]

theorem joinSep_ne_nil {sepc : Char} {s : List Char} {ss : List (List Char)}
    (hs : s ≠ []) : joinSep sepc (s :: ss) ≠ [] := by
  rw [joinSep_cons]
  cases ss with
  | nil => simpa using hs
  | cons s2 ss2 =>
    simp

theorem joinSep_head? {sepc : Char} {s : List Char} {ss : List (List Char)}
    (hs : s ≠ []) : (joinSep sepc (s :: ss)).head? = s.head? := by
  rw [joinSep_cons, List.head?_append]
  cases s with
  | nil => exact absurd rfl hs
  | cons a t => simp

theorem joinSep_getLast?_mem {sepc : Char} :
    ∀ (segs : List (List Char)), (∀ s ∈ segs, s ≠ []) →
      ∀ x, (joinSep sepc segs).getLast? = some x → ∃ s ∈ segs, x ∈ s := by
  intro segs
  induction segs with
  | nil => intro _ x hx; simp [joinSep] at hx
  | cons s ss ih =>
    intro hne x hx
    cases ss with
    | nil =>
      refine ⟨s, by simp, ?_⟩
      have : joinSep sepc [s] = s := rfl
      rw [this] at hx
      exact List.mem_of_getLast?_eq_some hx
    | cons s2 ss2 =>
      have hj : joinSep sepc (s :: s2 :: ss2)
          = s ++ sepc :: joinSep sepc (s2 :: ss2) := rfl
      have hjoin2 : joinSep sepc (s2 :: ss2) ≠ [] :=
        joinSep_ne_nil (hne s2 (by simp))
      rw [hj, List.getLast?_append] at hx
      have hlast2 : (sepc :: joinSep sepc (s2 :: ss2)).getLast?
          = (joinSep sepc (s2 :: ss2)).getLast? := by
        have : sepc :: joinSep sepc (s2 :: ss2)
            = [sepc] ++ joinSep sepc (s2 :: ss2) := rfl
        rw [this, List.getLast?_append]
        cases hgl : (joinSep sepc (s2 :: ss2)).getLast? with
        | none => exact absurd (List.getLast?_eq_none_iff.mp hgl) hjoin2
        | some y => simp
      rw [hlast2] at hx
      cases hgl : (joinSep sepc (s2 :: ss2)).getLast? with
      | none => exact absurd (List.getLast?_eq_none_iff.mp hgl) hjoin2
      | some y =>
        rw [hgl] at hx
        simp only [Option.or_some] at hx
        obtain ⟨s', hs', hx'⟩ := ih (fun u hu => hne u (by simp [hu])) x
          (by rw [hgl]; injection hx with h; rw [h])
        exact ⟨s', by simp [hs'], hx'⟩

end JoinLemmas

section PosixNormalize

open PathCore

theorem posix_isAbsolute_iff (l : List Char) :
    posix.isAbsolute l = true ↔ l.head? = some '/' := by
  cases l with
  | nil => simp [posix.isAbsolute]
  | cons c t => simp [posix.isAbsolute]

theorem posix_normalize_eq {p : List Char} (hp : p ≠ []) :
    posix.normalize p
      = posix.assemble (posix.isAbsolute p) (decide (p.getLast? = some '/'))
          (normSegs (!posix.isAbsolute p) (splitSegs isPosixSep p)) := by
  unfold posix.normalize
  rw [if_neg hp]

theorem posix_isAbsolute_eq_false {l : List Char}
    (h : ∀ x, l.head? = some x → x ≠ '/') : posix.isAbsolute l = false := by
  cases l with
  | nil => rfl
  | cons c t =>
    simp only [posix.isAbsolute]
    simpa using h c rfl

theorem getLast?_cons_of_ne_nil {α : Type} (c : α) {l : List α}
    (h : l ≠ []) : (c :: l).getLast? = l.getLast? := by
  have : c :: l = [c] ++ l := rfl
  rw [this, List.getLast?_append]
  cases hgl : l.getLast? with
  | none => exact absurd (List.getLast?_eq_none_iff.mp hgl) h
  | some y => simp

/-- An assembled normalized form is a fixed point of `posix.normalize`. -/
theorem posix_assemble_fixed (A T : Bool) (segs : List (List Char))
    (hinv : SegInv isPosixSep (!A) segs) :
    posix.normalize (posix.assemble A T segs) = posix.assemble A T segs := by
  cases segs with
  | nil => cases A <;> cases T <;> decide
  | cons s ss =>
    have hgood := hinv.2
    have hs : s ≠ [] := (hgood s (by simp)).1
    have hJne : joinSep '/' (s :: ss) ≠ [] := joinSep_ne_nil hs
    have hheadJ : ∃ c, (joinSep '/' (s :: ss)).head? = some c ∧
        isPosixSep c = false := by
      refine ⟨s.head hs, ?_, ?_⟩
      · rw [joinSep_head? hs]
        exact List.head?_eq_head hs
      · exact (hgood s (by simp)).2.2 _ (List.head_mem hs)
    obtain ⟨hc, hcJ, hcns⟩ := hheadJ
    have hcne : hc ≠ '/' := by simpa [isPosixSep] using hcns
    have hlastJ : ∃ x, (joinSep '/' (s :: ss)).getLast? = some x ∧ x ≠ '/' := by
      cases hgl : (joinSep '/' (s :: ss)).getLast? with
      | none => exact absurd (List.getLast?_eq_none_iff.mp hgl) hJne
      | some y =>
        refine ⟨y, rfl, ?_⟩
        obtain ⟨s', hs', hmem⟩ := joinSep_getLast?_mem (s :: ss)
          (fun u hu => (hgood u hu).1) y hgl
        have := (hgood s' hs').2.2 y hmem
        simpa [isPosixSep] using this
    obtain ⟨lc, hlcJ, hlcne⟩ := hlastJ
    have hrecover : splitSegs isPosixSep (joinSep '/' (s :: ss)) = s :: ss :=
      splitSegs_joinSep (by decide) (s :: ss)
        (fun u hu => ⟨(hgood u hu).1, (hgood u hu).2.2⟩)
    have hfix : normSegs (!A) (s :: ss) = s :: ss := normSegs_fixed hinv
    have hheadJeq : ∃ t', joinSep '/' (s :: ss) = hc :: t' := by
      cases hj : joinSep '/' (s :: ss) with
      | nil => exact absurd hj hJne
      | cons x xs =>
        rw [hj] at hcJ
        injection hcJ with h
        exact ⟨xs, by rw [h]⟩
    obtain ⟨Jt, hJt⟩ := hheadJeq
    cases A with
    | true =>
      cases T with
      | true =>
        -- q = '/' :: (J ++ ['/'])
        have hq : posix.assemble true true (s :: ss)
            = '/' :: (joinSep '/' (s :: ss) ++ ['/']) := by
          simp [posix.assemble, hJne]
        rw [hq, ← hq]
        have hqne : posix.assemble true true (s :: ss) ≠ [] := by
          rw [hq]; simp
        rw [posix_normalize_eq hqne, hq]
        have habs : posix.isAbsolute ('/' :: (joinSep '/' (s :: ss) ++ ['/']))
            = true := by simp [posix.isAbsolute]
        have hlast : ('/' :: (joinSep '/' (s :: ss) ++ ['/'])).getLast?
            = some '/' := by
          rw [getLast?_cons_of_ne_nil _ (by simp)]
          exact List.getLast?_concat _
        have hsplit : splitSegs isPosixSep
            ('/' :: (joinSep '/' (s :: ss) ++ ['/'])) = s :: ss := by
          rw [splitSegs_cons_sep (by decide),
            splitSegs_append_sep (by decide), hrecover]
        rw [habs, hlast, hsplit, hfix]
        have hd : decide ((some '/' : Option Char) = some '/') = true := by
          simp
        rw [hd]
        exact hq
      | false =>
        -- q = '/' :: J
        have hq : posix.assemble true false (s :: ss)
            = '/' :: joinSep '/' (s :: ss) := by
          simp [posix.assemble, hJne]
        rw [hq, ← hq]
        have hqne : posix.assemble true false (s :: ss) ≠ [] := by
          rw [hq]; simp
        rw [posix_normalize_eq hqne, hq]
        have habs : posix.isAbsolute ('/' :: joinSep '/' (s :: ss))
            = true := by simp [posix.isAbsolute]
        have hlast : ('/' :: joinSep '/' (s :: ss)).getLast?
            = some lc := by
          rw [getLast?_cons_of_ne_nil _ hJne]
          exact hlcJ
        have hsplit : splitSegs isPosixSep ('/' :: joinSep '/' (s :: ss))
            = s :: ss := by
          rw [splitSegs_cons_sep (by decide), hrecover]
        rw [habs, hlast, hsplit, hfix]
        have hd : decide ((some lc : Option Char) = some '/') = false := by
          simpa using hlcne
        rw [hd]
        exact hq
    | false =>
      cases T with
      | true =>
        -- q = J ++ ['/']
        have hq : posix.assemble false true (s :: ss)
            = joinSep '/' (s :: ss) ++ ['/'] := by
          simp [posix.assemble, hJne]
        rw [hq, ← hq]
        have hqne : posix.assemble false true (s :: ss) ≠ [] := by
          rw [hq]; simp
        rw [posix_normalize_eq hqne, hq]
        have habs : posix.isAbsolute (joinSep '/' (s :: ss) ++ ['/'])
            = false := by
          apply posix_isAbsolute_eq_false
          intro x hx
          rw [hJt] at hx
          simp only [List.cons_append, List.head?_cons] at hx
          injection hx with h
          rw [← h]
          exact hcne
        have hlast : (joinSep '/' (s :: ss) ++ ['/']).getLast? = some '/' :=
          List.getLast?_concat _
        have hsplit : splitSegs isPosixSep (joinSep '/' (s :: ss) ++ ['/'])
            = s :: ss := by
          rw [splitSegs_append_sep (by decide), hrecover]
        rw [habs, hlast, hsplit, hfix]
        have hd : decide ((some '/' : Option Char) = some '/') = true := by
          simp
        rw [hd]
        exact hq
      | false =>
        -- q = J
        have hq : posix.assemble false false (s :: ss)
            = joinSep '/' (s :: ss) := by
          simp [posix.assemble, hJne]
        rw [hq, ← hq]
        have hqne : posix.assemble false false (s :: ss) ≠ [] := by
          rw [hq]; exact hJne
        rw [posix_normalize_eq hqne, hq]
        have habs : posix.isAbsolute (joinSep '/' (s :: ss)) = false := by
          apply posix_isAbsolute_eq_false
          intro x hx
          rw [hcJ] at hx
          injection hx with h
          rw [← h]
          exact hcne
        have hsplit : splitSegs isPosixSep (joinSep '/' (s :: ss))
            = s :: ss := hrecover
        rw [habs, hlcJ, hsplit, hfix]
        have hd : decide ((some lc : Option Char) = some '/') = false := by
          simpa using hlcne
        rw [hd]
        exact hq

/-- POSIX `normalize` is idempotent. -/
theorem posix_normalize_idem (p : List Char) :
    posix.normalize (posix.normalize p) = posix.normalize p := by
  by_cases hp : p = []
  · subst hp; decide
  · have hsplitgood := splitSegs_good isPosixSep p
    have hinv : SegInv isPosixSep (!posix.isAbsolute p)
        (normSegs (!posix.isAbsolute p) (splitSegs isPosixSep p)) :=
      normSegs_inv (by decide) _ (fun s hs => (hsplitgood s hs).2)
    rw [posix_normalize_eq hp]
    exact posix_assemble_fixed _ _ _ hinv

example : posix.normalize ('/' :: 'a' :: '/' :: '.' :: '.' :: []) = ['/'] := by
  decide

example : posix.normalize ('a' :: '/' :: 'b' :: '/' :: []) =
    ('a' :: '/' :: 'b' :: '/' :: []) := by decide

end PosixNormalize

section WinSmoke

example : win32.normalize "C:\\foo\\..\\bar".data = "C:\\bar".data := by decide

example : win32.normalize ".\\C:".data = "C:".data := by decide

example : win32.normalize "C:".data = "C:.".data := by decide

example : win32.normalize "\\\\server\\share".data
    = "\\\\server\\share\\".data := by decide

example : win32.normalize "//server/share/x/../y".data
    = "\\\\server\\share\\y".data := by decide

example : win32.normalize "C:\\".data = "C:\\".data := by decide

example : win32.isAbsolute "C:\\a".data = true := by decide

example : win32.isAbsolute "C:".data = false := by decide

example : win32.normalize ".\\C:.\\b".data = "C:.\\b".data := by decide

example : win32.normalize "C:.\\b".data = "C:b".data := by decide

example : win32.normalize "..\\a\\..\\..\\b\\".data = "..\\..\\b\\".data := by
  decide

end WinSmoke

section WinParse

open PathCore

theorem isDriveL_not_sep {l : Char} (h : isDriveL l = true) :
    isWinSep l = false := by
  by_contra hcon
  have hsep : isWinSep l = true := by
    cases hv : isWinSep l with
    | true => rfl
    | false => exact absurd hv hcon
  have : l = '\\' ∨ l = '/' := by
    simpa [isWinSep] using hsep
  rcases this with rfl | rfl
  · simp [isDriveL] at h
  · simp [isDriveL] at h

theorem parseWinRoot_sep {t : List Char}
    (ht : t = [] ∨ ∃ c cs, t = c :: cs ∧ isWinSep c = false) :
    win32.parseWinRoot ('\\' :: t) = (none, true, t) := by
  rcases ht with rfl | ⟨c, cs, rfl, hc⟩
  · rfl
  · rw [win32.parseWinRoot]
    rw [if_pos (by decide)]
    simp only [hc]
    rw [if_neg (by simp [hc])]

theorem parseWinRoot_drive {l : Char} (hl : isDriveL l = true)
    (t : List Char) :
    win32.parseWinRoot (l :: ':' :: t)
      = (some [l, ':'],
          (match t with
           | s :: _ => isWinSep s
           | [] => false), t) := by
  rw [win32.parseWinRoot, if_neg (by simp [isDriveL_not_sep hl])]
  split
  · rename_i rest2 heq
    injection heq with h1 h2
    subst h2
    rw [if_pos hl]
  · rename_i hne
    exact absurd rfl (hne t)

theorem parseWinRoot_nonroot {c : Char} {rest : List Char}
    (hc : isWinSep c = false)
    (h : (∀ t, rest ≠ ':' :: t) ∨ isDriveL c = false) :
    win32.parseWinRoot (c :: rest) = (none, false, c :: rest) := by
  rw [win32.parseWinRoot.eq_def]
  dsimp only
  rw [if_neg (by simp [hc])]
  split
  · rename_i rest2
    rcases h with h | h
    · exact absurd rfl (h rest2)
    · rw [if_neg (by simp [h])]
  · rfl

theorem parseWinRoot_unc {server share : List Char} (hs : server ≠ [])
    (hsf : ∀ c ∈ server, isWinSep c = false) (hh : share ≠ [])
    (hhf : ∀ c ∈ share, isWinSep c = false) (t : List Char)
    (ht : t = [] ∨ ∃ c cs, t = c :: cs ∧ isWinSep c = true) :
    win32.parseWinRoot ('\\' :: '\\' :: (server ++ '\\' :: (share ++ t)))
      = (some ('\\' :: '\\' :: (server ++ '\\' :: share)), true, t) := by
  have hbs : isWinSep '\\' = true := by decide
  have h1 : (server ++ '\\' :: (share ++ t)).takeWhile (fun x => !isWinSep x)
      = server := by
    rw [List.takeWhile_append_of_pos (by intro a ha; simp [hsf a ha]),
      List.takeWhile_cons_of_neg (by simp [hbs])]
    simp
  have h2 : (server ++ '\\' :: (share ++ t)).dropWhile (fun x => !isWinSep x)
      = '\\' :: (share ++ t) := by
    rw [List.dropWhile_append_of_pos (by intro a ha; simp [hsf a ha]),
      List.dropWhile_cons_of_neg (by simp [hbs])]
  have h3 : ('\\' :: (share ++ t)).dropWhile isWinSep = share ++ t := by
    rw [List.dropWhile_cons_of_pos (by simp [hbs])]
    cases hsh : share with
    | nil => exact absurd hsh hh
    | cons a as =>
      have ha : isWinSep a = false := hhf a (by rw [hsh]; simp)
      have hna : ¬ (isWinSep a = true) := by simp [ha]
      rw [List.cons_append, List.dropWhile_cons_of_neg hna]
  have h4 : (share ++ t).takeWhile (fun x => !isWinSep x) = share := by
    rw [List.takeWhile_append_of_pos (by intro a ha; simp [hhf a ha])]
    rcases ht with rfl | ⟨c, cs, rfl, hct⟩
    · simp
    · rw [List.takeWhile_cons_of_neg (by simp [hct])]
      simp
  have h5 : (share ++ t).dropWhile (fun x => !isWinSep x) = t := by
    rw [List.dropWhile_append_of_pos (by intro a ha; simp [hhf a ha])]
    rcases ht with rfl | ⟨c, cs, rfl, hct⟩
    · simp
    · rw [List.dropWhile_cons_of_neg (by simp [hct])]
  rw [win32.parseWinRoot, if_pos hbs]
  dsimp only
  rw [if_pos hbs]
  rw [h1, h2]
  rw [if_neg hs]
  dsimp only
  rw [h3, h4, h5]
  rw [if_neg hh]

end WinParse

section WinNormLemmas

open PathCore

/-- Bundle of facts about the joined form of a good segment list. -/
theorem segs_facts {isSep : Char → Bool} {sepc : Char}
    (hsepc : isSep sepc = true) {s : List Char} {ss : List (List Char)}
    (hgood : ∀ u ∈ s :: ss, u ≠ [] ∧ u ≠ ['.'] ∧ ∀ c ∈ u, isSep c = false) :
    joinSep sepc (s :: ss) ≠ [] ∧
    (∃ hc Jt, joinSep sepc (s :: ss) = hc :: Jt ∧ isSep hc = false) ∧
    (∃ lc, (joinSep sepc (s :: ss)).getLast? = some lc ∧ isSep lc = false) ∧
    splitSegs isSep (joinSep sepc (s :: ss)) = s :: ss := by
  have hs : s ≠ [] := (hgood s (by simp)).1
  have hJne : joinSep sepc (s :: ss) ≠ [] := joinSep_ne_nil hs
  refine ⟨hJne, ?_, ?_, ?_⟩
  · have hhd : (joinSep sepc (s :: ss)).head? = some (s.head hs) := by
      rw [joinSep_head? hs]
      exact List.head?_eq_head hs
    cases hj : joinSep sepc (s :: ss) with
    | nil => exact absurd hj hJne
    | cons x xs =>
      rw [hj] at hhd
      injection hhd with hx
      refine ⟨x, xs, rfl, ?_⟩
      rw [hx]
      exact (hgood s (by simp)).2.2 _ (List.head_mem hs)
  · cases hgl : (joinSep sepc (s :: ss)).getLast? with
    | none => exact absurd (List.getLast?_eq_none_iff.mp hgl) hJne
    | some y =>
      refine ⟨y, rfl, ?_⟩
      obtain ⟨s', hs', hmem⟩ := joinSep_getLast?_mem (s :: ss)
        (fun u hu => (hgood u hu).1) y hgl
      exact (hgood s' hs').2.2 y hmem
  · exact splitSegs_joinSep hsepc (s :: ss)
      (fun u hu => ⟨(hgood u hu).1, (hgood u hu).2.2⟩)

/-- Detects the Windows `normalize` outputs that re-parse differently: a
drive-relative result whose remainder is empty (a bare `X:`) or starts with a
`.` segment followed by further segments.  On exactly those strings a second
`normalize` differs from the first. -/
def winReparseUnstable (q : List Char) : Bool :=
  match win32.parseWinRoot q with
  | (some _, false, t) =>
    match splitSegs isWinSep t with
    | [] => true
    | u :: us => decide (u = ['.']) && decide (us ≠ [])
  | _ => false

theorem win_normalize_eq {p : List Char} (hp : p ≠ []) :
    win32.normalize p
      = win32.assemble (win32.parseWinRoot p).1 (win32.parseWinRoot p).2.1
          (win32.lastIsSep p)
          (normSegs (!(win32.parseWinRoot p).2.1)
            (splitSegs isWinSep (win32.parseWinRoot p).2.2)) := by
  unfold win32.normalize
  rw [if_neg hp]

theorem win_assemble_cons (device : Option (List Char)) (abs trail : Bool)
    {s : List Char} {ss : List (List Char)} (hs : s ≠ []) :
    win32.assemble device abs trail (s :: ss)
      = (match device with
         | none =>
           if abs then
             '\\' :: (if trail then joinSep '\\' (s :: ss) ++ ['\\']
               else joinSep '\\' (s :: ss))
           else (if trail then joinSep '\\' (s :: ss) ++ ['\\']
               else joinSep '\\' (s :: ss))
         | some d =>
           if abs then
             d ++ '\\' :: (if trail then joinSep '\\' (s :: ss) ++ ['\\']
               else joinSep '\\' (s :: ss))
           else d ++ (if trail then joinSep '\\' (s :: ss) ++ ['\\']
               else joinSep '\\' (s :: ss))) := by
  have hJ : joinSep '\\' (s :: ss) ≠ [] := joinSep_ne_nil hs
  cases abs <;> cases trail <;> cases device <;>
    simp [win32.assemble, hJ]

/-- The root parse of any path yields a device of one of three shapes:
no device, a drive `X:`, or a canonical UNC device. -/
theorem parseWinRoot_shape (p : List Char) :
    (win32.parseWinRoot p).1 = none ∨
    (∃ l, (win32.parseWinRoot p).1 = some [l, ':'] ∧ isDriveL l = true) ∨
    (∃ server share, (win32.parseWinRoot p).1
        = some ('\\' :: '\\' :: (server ++ '\\' :: share)) ∧
      server ≠ [] ∧ share ≠ [] ∧ (∀ c ∈ server, isWinSep c = false) ∧
      (∀ c ∈ share, isWinSep c = false) ∧ (win32.parseWinRoot p).2.1 = true) := by
  cases p with
  | nil => exact Or.inl rfl
  | cons c rest =>
    rw [win32.parseWinRoot.eq_def]
    dsimp only
    by_cases hc : isWinSep c = true
    · rw [if_pos hc]
      cases rest with
      | nil => exact Or.inl rfl
      | cons c2 rest2 =>
        dsimp only
        by_cases hc2 : isWinSep c2 = true
        · rw [if_pos hc2]
          by_cases hserver :
              rest2.takeWhile (fun x => !isWinSep x) = []
          · rw [if_pos hserver]
            exact Or.inl rfl
          · rw [if_neg hserver]
            cases hAfter : rest2.dropWhile (fun x => !isWinSep x) with
            | nil => exact Or.inl rfl
            | cons a as =>
              dsimp only
              by_cases hshare : ((a :: as).dropWhile isWinSep).takeWhile
                  (fun x => !isWinSep x) = []
              · rw [if_pos hshare]
                exact Or.inl rfl
              · rw [if_neg hshare]
                refine Or.inr (Or.inr ⟨_, _, rfl, hserver, hshare, ?_, ?_, rfl⟩)
                · intro x hx
                  have := List.mem_takeWhile_imp hx
                  simpa using this
                · intro x hx
                  have := List.mem_takeWhile_imp hx
                  simpa using this
        · rw [if_neg hc2]
          exact Or.inl rfl
    · rw [if_neg hc]
      split
      · rename_i rest2
        by_cases hdl : isDriveL c = true
        · rw [if_pos hdl]
          exact Or.inr (Or.inl ⟨c, rfl, hdl⟩)
        · rw [if_neg hdl]
          exact Or.inl rfl
      · exact Or.inl rfl

theorem isDriveL_not_dot {l : Char} (h : isDriveL l = true) : l ≠ '.' := by
  intro he
  rw [he] at h
  exact absurd h (by decide)

theorem segInv_no_dd {isSep : Char → Bool} {aar : Bool} {s : List Char}
    {ss : List (List Char)} (hinv : SegInv isSep aar (s :: ss))
    (hsd : s ≠ dotdot) : ∀ u ∈ s :: ss, u ≠ dotdot := by
  obtain ⟨⟨k, r, hshape, hr, _⟩, _⟩ := hinv
  have hk0 : k = 0 := by
    by_contra hkne
    obtain ⟨k', rfl⟩ : ∃ k', k = k' + 1 := ⟨k - 1, by omega⟩
    rw [List.replicate_succ, List.cons_append] at hshape
    injection hshape with h1 h2
    exact hsd h1
  subst hk0
  simp only [List.replicate_zero, List.nil_append] at hshape
  intro u hu
  exact hr u (by rw [← hshape]; exact hu)

theorem segInv_tail {isSep : Char → Bool} {aar : Bool} {s : List Char}
    {ss : List (List Char)} (hinv : SegInv isSep aar (s :: ss))
    (hsd : s ≠ dotdot) (b : Bool) : SegInv isSep b ss := by
  have hnd := segInv_no_dd hinv hsd
  refine ⟨⟨0, ss, by simp, fun u hu => hnd u (by simp [hu]), fun _ => rfl⟩, ?_⟩
  intro u hu
  exact hinv.2 u (by simp [hu])

theorem segInv_replaceHead {isSep : Char → Bool} {aar : Bool} {s : List Char}
    {ss : List (List Char)} (hinv : SegInv isSep aar (s :: ss))
    (hsd : s ≠ dotdot) {r1 : List Char} (h1 : r1 ≠ []) (h2 : r1 ≠ ['.'])
    (h3 : ∀ c ∈ r1, isSep c = false) : SegInv isSep true (r1 :: ss) := by
  have hnd := segInv_no_dd hinv hsd
  have hgood := hinv.2
  by_cases hdd : r1 = dotdot
  · refine ⟨⟨1, ss, by simp [hdd], fun u hu => hnd u (by simp [hu]),
      by simp⟩, ?_⟩
    intro u hu
    rcases List.mem_cons.mp hu with rfl | hu'
    · exact ⟨h1, h2, h3⟩
    · exact hgood u (by simp [hu'])
  · refine ⟨⟨0, r1 :: ss, by simp, ?_, fun _ => rfl⟩, ?_⟩
    · intro u hu
      rcases List.mem_cons.mp hu with rfl | hu'
      · exact hdd
      · exact hnd u (by simp [hu'])
    · intro u hu
      rcases List.mem_cons.mp hu with rfl | hu'
      · exact ⟨h1, h2, h3⟩
      · exact hgood u (by simp [hu'])

theorem lastIsSep_calc (pre : List Char) {J : List Char} {lc : Char}
    (hJne : J ≠ []) (hlcJ : J.getLast? = some lc)
    (hlcns : isWinSep lc = false) (trail : Bool) :
    win32.lastIsSep (pre ++ (if trail then J ++ ['\\'] else J)) = trail := by
  cases trail with
  | true =>
    rw [if_pos rfl, show pre ++ (J ++ ['\\']) = (pre ++ J) ++ ['\\'] by simp]
    unfold win32.lastIsSep
    rw [List.getLast?_concat]
    decide
  | false =>
    rw [if_neg (by simp)]
    unfold win32.lastIsSep
    rw [List.getLast?_append_of_ne_nil pre hJne, hlcJ]
    exact hlcns

theorem splitSegs_trail {isSep : Char → Bool} {sepc : Char}
    (hsep : isSep sepc = true) {J : List Char} {segs : List (List Char)}
    (hrec : splitSegs isSep J = segs) (trail : Bool) :
    splitSegs isSep (if trail then J ++ [sepc] else J) = segs := by
  cases trail with
  | true => rw [if_pos rfl, splitSegs_append_sep hsep, hrec]
  | false => simpa using hrec

/-- Fixed point of Windows `normalize` on assembled UNC-device forms. -/
theorem winFix_unc (server share : List Char) (trail : Bool)
    (segs : List (List Char)) (hinv : SegInv isWinSep false segs)
    (hsne : server ≠ []) (hhne : share ≠ [])
    (hsf : ∀ c ∈ server, isWinSep c = false)
    (hhf : ∀ c ∈ share, isWinSep c = false) :
    win32.normalize (win32.assemble
        (some ('\\' :: '\\' :: (server ++ '\\' :: share))) true trail segs)
      = win32.assemble (some ('\\' :: '\\' :: (server ++ '\\' :: share)))
          true trail segs := by
  cases segs with
  | nil =>
    have hq : win32.assemble
        (some ('\\' :: '\\' :: (server ++ '\\' :: share))) true trail []
        = '\\' :: '\\' :: (server ++ '\\' :: (share ++ ['\\'])) := by
      cases trail with
      | true => simp [win32.assemble, joinSep]
      | false => simp [win32.assemble, joinSep]
    rw [hq, ← hq]
    have hqne : win32.assemble
        (some ('\\' :: '\\' :: (server ++ '\\' :: share))) true trail []
        ≠ [] := by rw [hq]; simp
    rw [win_normalize_eq hqne, hq]
    have hparse := parseWinRoot_unc hsne hsf hhne hhf ['\\']
      (Or.inr ⟨'\\', [], rfl, by decide⟩)
    rw [hparse]
    have hsplit : splitSegs isWinSep ['\\'] = [] := by decide
    rw [hsplit]
    have hlast : win32.lastIsSep
        ('\\' :: '\\' :: (server ++ '\\' :: (share ++ ['\\']))) = true := by
      unfold win32.lastIsSep
      rw [show '\\' :: '\\' :: (server ++ '\\' :: (share ++ ['\\']))
          = ('\\' :: '\\' :: (server ++ '\\' :: share)) ++ ['\\'] by simp,
        List.getLast?_concat]
      decide
    rw [hlast]
    cases trail with
    | true => simp [win32.assemble, normSegs, joinSep]
    | false => simp [win32.assemble, normSegs, joinSep]
  | cons s ss =>
    have hgood := hinv.2
    have hs : s ≠ [] := (hgood s (by simp)).1
    obtain ⟨hJne, ⟨hc, Jt, hJeq, hcns⟩, ⟨lc, hlcJ, hlcns⟩, hrec⟩ :=
      segs_facts (by decide : isWinSep '\\' = true) hgood
    have hq : win32.assemble
        (some ('\\' :: '\\' :: (server ++ '\\' :: share))) true trail (s :: ss)
        = '\\' :: '\\' :: (server ++ '\\' :: (share ++
            ('\\' :: (if trail then joinSep '\\' (s :: ss) ++ ['\\']
              else joinSep '\\' (s :: ss))))) := by
      rw [win_assemble_cons _ _ _ hs]
      simp
    rw [hq, ← hq]
    have hqne : win32.assemble
        (some ('\\' :: '\\' :: (server ++ '\\' :: share))) true trail (s :: ss)
        ≠ [] := by rw [hq]; simp
    rw [win_normalize_eq hqne, hq]
    have hparse := parseWinRoot_unc hsne hsf hhne hhf
      ('\\' :: (if trail then joinSep '\\' (s :: ss) ++ ['\\']
        else joinSep '\\' (s :: ss)))
      (Or.inr ⟨'\\', _, rfl, by decide⟩)
    rw [hparse]
    have hsplit : splitSegs isWinSep
        ('\\' :: (if trail then joinSep '\\' (s :: ss) ++ ['\\']
          else joinSep '\\' (s :: ss))) = s :: ss := by
      rw [splitSegs_cons_sep (by decide), splitSegs_trail (by decide) hrec]
    rw [hsplit]
    have hlast : win32.lastIsSep
        ('\\' :: '\\' :: (server ++ '\\' :: (share ++
          ('\\' :: (if trail then joinSep '\\' (s :: ss) ++ ['\\']
            else joinSep '\\' (s :: ss)))))) = trail := by
      rw [show '\\' :: '\\' :: (server ++ '\\' :: (share ++
          ('\\' :: (if trail then joinSep '\\' (s :: ss) ++ ['\\']
            else joinSep '\\' (s :: ss)))))
          = ('\\' :: '\\' :: (server ++ '\\' :: share) ++ ['\\'])
            ++ (if trail then joinSep '\\' (s :: ss) ++ ['\\']
              else joinSep '\\' (s :: ss)) by simp]
      exact lastIsSep_calc _ hJne hlcJ hlcns trail
    rw [hlast]
    have hfix : normSegs (!true) (s :: ss) = s :: ss := normSegs_fixed hinv
    rw [hfix, hq]

/-- Fixed point of Windows `normalize` on assembled drive-device forms. -/
theorem winFix_drive (l : Char) (hdl : isDriveL l = true) (abs trail : Bool)
    (segs : List (List Char)) (hinv : SegInv isWinSep (!abs) segs) :
    win32.normalize (win32.assemble (some [l, ':']) abs trail segs)
      = win32.assemble (some [l, ':']) abs trail segs := by
  cases segs with
  | nil =>
    cases abs with
    | true =>
      -- q = l:\
      have hq : win32.assemble (some [l, ':']) true trail []
          = [l, ':', '\\'] := by
        cases trail with
        | true => simp [win32.assemble, joinSep]
        | false => simp [win32.assemble, joinSep]
      rw [hq, ← hq]
      have hqne : win32.assemble (some [l, ':']) true trail [] ≠ [] := by
        rw [hq]; simp
      rw [win_normalize_eq hqne, hq]
      have hparse : win32.parseWinRoot [l, ':', '\\']
          = (some [l, ':'], true, ['\\']) := by
        rw [show ([l, ':', '\\'] : List Char) = l :: ':' :: ['\\'] from rfl,
          parseWinRoot_drive hdl]
        rfl
      rw [hparse]
      have hsplit : splitSegs isWinSep ['\\'] = [] := by decide
      rw [hsplit]
      have hlast : win32.lastIsSep [l, ':', '\\'] = true := by
        unfold win32.lastIsSep
        rw [show ([l, ':', '\\'] : List Char) = [l, ':'] ++ ['\\'] from rfl,
          List.getLast?_concat]
        decide
      rw [hlast]
      simp [win32.assemble, normSegs, joinSep]
    | false =>
      cases trail with
      | true =>
        -- q = l:.\
        have hq : win32.assemble (some [l, ':']) false true []
            = [l, ':', '.', '\\'] := by simp [win32.assemble, joinSep]
        rw [hq, ← hq]
        have hqne : win32.assemble (some [l, ':']) false true [] ≠ [] := by
          rw [hq]; simp
        rw [win_normalize_eq hqne, hq]
        have hparse : win32.parseWinRoot [l, ':', '.', '\\']
            = (some [l, ':'], false, ['.', '\\']) := by
          rw [show ([l, ':', '.', '\\'] : List Char) = l :: ':' :: ['.', '\\']
            from rfl, parseWinRoot_drive hdl]
          simp [show isWinSep '.' = false from by decide]
        rw [hparse]
        have hsplit : splitSegs isWinSep ['.', '\\'] = [['.']] := by decide
        rw [hsplit]
        have hns : normSegs (!false) [['.']] = [] := by decide
        rw [hns]
        have hlast : win32.lastIsSep [l, ':', '.', '\\'] = true := by
          unfold win32.lastIsSep
          rw [show ([l, ':', '.', '\\'] : List Char)
            = [l, ':', '.'] ++ ['\\'] from rfl, List.getLast?_concat]
          decide
        rw [hlast]
        simp [win32.assemble, joinSep]
      | false =>
        -- q = l:.
        have hq : win32.assemble (some [l, ':']) false false []
            = [l, ':', '.'] := by simp [win32.assemble, joinSep]
        rw [hq, ← hq]
        have hqne : win32.assemble (some [l, ':']) false false [] ≠ [] := by
          rw [hq]; simp
        rw [win_normalize_eq hqne, hq]
        have hparse : win32.parseWinRoot [l, ':', '.']
            = (some [l, ':'], false, ['.']) := by
          rw [show ([l, ':', '.'] : List Char) = l :: ':' :: ['.'] from rfl,
            parseWinRoot_drive hdl]
          simp [show isWinSep '.' = false from by decide]
        rw [hparse]
        have hsplit : splitSegs isWinSep ['.'] = [['.']] := by decide
        rw [hsplit]
        have hns : normSegs (!false) [['.']] = [] := by decide
        rw [hns]
        have hlast : win32.lastIsSep [l, ':', '.'] = false := by
          unfold win32.lastIsSep
          rw [show ([l, ':', '.'] : List Char) = [l, ':'] ++ ['.'] from rfl,
            List.getLast?_concat]
          decide
        rw [hlast]
        simp [win32.assemble, joinSep]
  | cons s ss =>
    have hgood := hinv.2
    have hs : s ≠ [] := (hgood s (by simp)).1
    obtain ⟨hJne, ⟨hc, Jt, hJeq, hcns⟩, ⟨lc, hlcJ, hlcns⟩, hrec⟩ :=
      segs_facts (by decide : isWinSep '\\' = true) hgood
    cases abs with
    | true =>
      have hq : win32.assemble (some [l, ':']) true trail (s :: ss)
          = [l, ':'] ++ '\\' :: (if trail then joinSep '\\' (s :: ss) ++ ['\\']
              else joinSep '\\' (s :: ss)) := by
        rw [win_assemble_cons _ _ _ hs]
        rfl
      rw [hq, ← hq]
      have hqne : win32.assemble (some [l, ':']) true trail (s :: ss) ≠ [] := by
        rw [hq]; simp
      rw [win_normalize_eq hqne, hq]
      have hparse : win32.parseWinRoot
          ([l, ':'] ++ '\\' :: (if trail then joinSep '\\' (s :: ss) ++ ['\\']
            else joinSep '\\' (s :: ss)))
          = (some [l, ':'], true,
              '\\' :: (if trail then joinSep '\\' (s :: ss) ++ ['\\']
                else joinSep '\\' (s :: ss))) := by
        rw [show ([l, ':'] ++ '\\' :: (if trail
              then joinSep '\\' (s :: ss) ++ ['\\']
              else joinSep '\\' (s :: ss)))
            = l :: ':' :: ('\\' :: (if trail
              then joinSep '\\' (s :: ss) ++ ['\\']
              else joinSep '\\' (s :: ss))) from rfl,
          parseWinRoot_drive hdl]
        rfl
      rw [hparse]
      have hsplit : splitSegs isWinSep
          ('\\' :: (if trail then joinSep '\\' (s :: ss) ++ ['\\']
            else joinSep '\\' (s :: ss))) = s :: ss := by
        rw [splitSegs_cons_sep (by decide), splitSegs_trail (by decide) hrec]
      rw [hsplit]
      have hlast : win32.lastIsSep
          ([l, ':'] ++ '\\' :: (if trail then joinSep '\\' (s :: ss) ++ ['\\']
            else joinSep '\\' (s :: ss))) = trail := by
        rw [show ([l, ':'] ++ '\\' :: (if trail
              then joinSep '\\' (s :: ss) ++ ['\\']
              else joinSep '\\' (s :: ss)))
            = [l, ':', '\\'] ++ (if trail
              then joinSep '\\' (s :: ss) ++ ['\\']
              else joinSep '\\' (s :: ss)) from rfl]
        exact lastIsSep_calc _ hJne hlcJ hlcns trail
      rw [hlast]
      have hfix : normSegs (!true) (s :: ss) = s :: ss := normSegs_fixed hinv
      rw [hfix, hq]
    | false =>
      have hq : win32.assemble (some [l, ':']) false trail (s :: ss)
          = [l, ':'] ++ (if trail then joinSep '\\' (s :: ss) ++ ['\\']
              else joinSep '\\' (s :: ss)) := by
        rw [win_assemble_cons _ _ _ hs]
        rfl
      rw [hq, ← hq]
      have hqne : win32.assemble (some [l, ':']) false trail (s :: ss)
          ≠ [] := by
        rw [hq]
        cases trail with
        | true => simp
        | false => simp [hJne]
      rw [win_normalize_eq hqne, hq]
      have hT2 : ∃ cs, (if trail then joinSep '\\' (s :: ss) ++ ['\\']
          else joinSep '\\' (s :: ss)) = hc :: cs := by
        cases trail with
        | true => exact ⟨Jt ++ ['\\'], by rw [if_pos rfl, hJeq]; simp⟩
        | false => exact ⟨Jt, by rw [if_neg (by simp), hJeq]⟩
      obtain ⟨cs, hT2⟩ := hT2
      have hparse : win32.parseWinRoot
          ([l, ':'] ++ (if trail then joinSep '\\' (s :: ss) ++ ['\\']
            else joinSep '\\' (s :: ss)))
          = (some [l, ':'], false,
              (if trail then joinSep '\\' (s :: ss) ++ ['\\']
                else joinSep '\\' (s :: ss))) := by
        rw [hT2, show ([l, ':'] ++ hc :: cs) = l :: ':' :: (hc :: cs)
          from rfl, parseWinRoot_drive hdl]
        simp [hcns]
      rw [hparse]
      have hsplit : splitSegs isWinSep
          (if trail then joinSep '\\' (s :: ss) ++ ['\\']
            else joinSep '\\' (s :: ss)) = s :: ss :=
        splitSegs_trail (by decide) hrec trail
      rw [hsplit]
      have hlast : win32.lastIsSep
          ([l, ':'] ++ (if trail then joinSep '\\' (s :: ss) ++ ['\\']
            else joinSep '\\' (s :: ss))) = trail :=
        lastIsSep_calc _ hJne hlcJ hlcns trail
      rw [hlast]
      have hfix : normSegs (!false) (s :: ss) = s :: ss := normSegs_fixed hinv
      rw [hfix, hq]

/-- Fixed point for a rootless relative result whose re-parse finds no
root. -/
theorem winFix_rel_nonroot (trail : Bool) {s : List Char}
    {ss : List (List Char)} (hinv : SegInv isWinSep true (s :: ss))
    (hparse : win32.parseWinRoot
        (if trail then joinSep '\\' (s :: ss) ++ ['\\']
          else joinSep '\\' (s :: ss))
      = (none, false,
          (if trail then joinSep '\\' (s :: ss) ++ ['\\']
            else joinSep '\\' (s :: ss)))) :
    win32.normalize (win32.assemble none false trail (s :: ss))
      = win32.assemble none false trail (s :: ss) := by
  have hgood := hinv.2
  have hs : s ≠ [] := (hgood s (by simp)).1
  obtain ⟨hJne, ⟨hc, Jt, hJeq, hcns⟩, ⟨lc, hlcJ, hlcns⟩, hrec⟩ :=
    segs_facts (by decide : isWinSep '\\' = true) hgood
  have hq : win32.assemble none false trail (s :: ss)
      = (if trail then joinSep '\\' (s :: ss) ++ ['\\']
          else joinSep '\\' (s :: ss)) := by
    rw [win_assemble_cons _ _ _ hs]
    rfl
  rw [hq, ← hq]
  have hqne : win32.assemble none false trail (s :: ss) ≠ [] := by
    rw [hq]
    cases trail with
    | true => simp
    | false => simp [hJne]
  rw [win_normalize_eq hqne, hq, hparse]
  have hsplit : splitSegs isWinSep
      (if trail then joinSep '\\' (s :: ss) ++ ['\\']
        else joinSep '\\' (s :: ss)) = s :: ss :=
    splitSegs_trail (by decide) hrec trail
  rw [hsplit]
  have hlast : win32.lastIsSep
      (if trail then joinSep '\\' (s :: ss) ++ ['\\']
        else joinSep '\\' (s :: ss)) = trail := by
    have := lastIsSep_calc [] hJne hlcJ hlcns trail
    simpa using this
  rw [hlast]
  have hfix : normSegs (!false) (s :: ss) = s :: ss := normSegs_fixed hinv
  rw [hfix, hq]

/-- Fixed point (or guarded failure) for a rootless relative result whose
first segment looks like a drive prefix `a:`. -/
theorem winFix_rel_drivelike (a : Char) (hdl : isDriveL a = true)
    (r : List Char) (ss : List (List Char)) (trail : Bool)
    (hinv : SegInv isWinSep true ((a :: ':' :: r) :: ss))
    (hsafe : winReparseUnstable
        (win32.assemble none false trail ((a :: ':' :: r) :: ss)) = false) :
    win32.normalize (win32.assemble none false trail ((a :: ':' :: r) :: ss))
      = win32.assemble none false trail ((a :: ':' :: r) :: ss) := by
  have hgood := hinv.2
  have hs : (a :: ':' :: r) ≠ [] := by simp
  obtain ⟨hJne, ⟨hc, Jt, hJeq, hcns⟩, ⟨lc, hlcJ, hlcns⟩, hrec⟩ :=
    segs_facts (by decide : isWinSep '\\' = true) hgood
  have hsd : (a :: ':' :: r) ≠ dotdot := by
    intro he
    injection he with h1 _
    exact isDriveL_not_dot hdl h1
  have hJ : joinSep '\\' ((a :: ':' :: r) :: ss)
      = (a :: ':' :: r) ++ (if ss = [] then []
          else '\\' :: joinSep '\\' ss) := joinSep_cons '\\' _ ss
  have hq : win32.assemble none false trail ((a :: ':' :: r) :: ss)
      = (if trail then joinSep '\\' ((a :: ':' :: r) :: ss) ++ ['\\']
          else joinSep '\\' ((a :: ':' :: r) :: ss)) := by
    rw [win_assemble_cons _ _ _ hs]
    rfl
  have hqne : win32.assemble none false trail ((a :: ':' :: r) :: ss)
      ≠ [] := by
    rw [hq]
    cases trail with
    | true => simp
    | false => simp [hJne]
  have hlastT : win32.lastIsSep
      (if trail then joinSep '\\' ((a :: ':' :: r) :: ss) ++ ['\\']
        else joinSep '\\' ((a :: ':' :: r) :: ss)) = trail := by
    have := lastIsSep_calc [] hJne hlcJ hlcns trail
    simpa using this
  cases r with
  | nil =>
    cases hss : ss with
    | nil =>
      subst hss
      cases trail with
      | false =>
        -- q = a: , a bare drive: excluded by hsafe
        exfalso
        have hqval : win32.assemble none false false ([a, ':'] :: [])
            = [a, ':'] := by
          rw [hq]
          simp [joinSep]
        have hquns : winReparseUnstable
            (win32.assemble none false false ([a, ':'] :: [])) = true := by
          rw [hqval]
          unfold winReparseUnstable
          rw [show ([a, ':'] : List Char) = a :: ':' :: [] from rfl,
            parseWinRoot_drive hdl]
          simp [splitSegs_nil]
        rw [hquns] at hsafe
        exact absurd hsafe (by simp)
      | true =>
        -- q = a:\
        have hqval : win32.assemble none false true ([a, ':'] :: [])
            = [a, ':', '\\'] := by
          rw [hq]
          simp [joinSep]
        rw [hqval, ← hqval]
        rw [win_normalize_eq hqne, hqval]
        have hparse : win32.parseWinRoot [a, ':', '\\']
            = (some [a, ':'], true, ['\\']) := by
          rw [show ([a, ':', '\\'] : List Char) = a :: ':' :: ['\\'] from rfl,
            parseWinRoot_drive hdl]
          rfl
        rw [hparse]
        have hsplit : splitSegs isWinSep ['\\'] = [] := by decide
        rw [hsplit]
        have hlast : win32.lastIsSep [a, ':', '\\'] = true := by
          unfold win32.lastIsSep
          rw [show ([a, ':', '\\'] : List Char) = [a, ':'] ++ ['\\'] from rfl,
            List.getLast?_concat]
          decide
        rw [hlast]
        simp [win32.assemble, normSegs, joinSep]
    | cons s2 ss2 =>
      subst hss
      -- q = a:\<further segments>
      have hgood2 : ∀ u ∈ s2 :: ss2, u ≠ [] ∧ u ≠ ['.'] ∧
          ∀ c ∈ u, isWinSep c = false :=
        fun u hu => hgood u (by simp [hu])
      obtain ⟨hJ2ne, _, _, hrec2⟩ :=
        segs_facts (by decide : isWinSep '\\' = true) hgood2
      have hs2 : s2 ≠ [] := (hgood2 s2 (by simp)).1
      have hqval : win32.assemble none false trail
          ((a :: ':' :: []) :: s2 :: ss2)
          = a :: ':' :: '\\' :: (if trail
              then joinSep '\\' (s2 :: ss2) ++ ['\\']
              else joinSep '\\' (s2 :: ss2)) := by
        rw [hq, hJ]
        cases trail with
        | true => simp
        | false => simp
      rw [hqval, ← hqval]
      rw [win_normalize_eq hqne, hqval]
      have hparse : win32.parseWinRoot
          (a :: ':' :: '\\' :: (if trail
            then joinSep '\\' (s2 :: ss2) ++ ['\\']
            else joinSep '\\' (s2 :: ss2)))
          = (some [a, ':'], true,
              '\\' :: (if trail then joinSep '\\' (s2 :: ss2) ++ ['\\']
                else joinSep '\\' (s2 :: ss2))) := by
        rw [parseWinRoot_drive hdl]
        rfl
      rw [hparse]
      have hsplit : splitSegs isWinSep
          ('\\' :: (if trail then joinSep '\\' (s2 :: ss2) ++ ['\\']
            else joinSep '\\' (s2 :: ss2))) = s2 :: ss2 := by
        rw [splitSegs_cons_sep (by decide), splitSegs_trail (by decide) hrec2]
      rw [hsplit]
      have hlast : win32.lastIsSep
          (a :: ':' :: '\\' :: (if trail
            then joinSep '\\' (s2 :: ss2) ++ ['\\']
            else joinSep '\\' (s2 :: ss2))) = trail := by
        rw [← hqval, hqval.symm.symm]
        rw [show a :: ':' :: '\\' :: (if trail
            then joinSep '\\' (s2 :: ss2) ++ ['\\']
            else joinSep '\\' (s2 :: ss2))
          = (if trail then joinSep '\\' ((a :: ':' :: []) :: s2 :: ss2) ++ ['\\']
              else joinSep '\\' ((a :: ':' :: []) :: s2 :: ss2)) from by
          rw [hJ]
          cases trail with
          | true => simp
          | false => simp]
        exact hlastT
      rw [hlast]
      have hinv2 : SegInv isWinSep false (s2 :: ss2) :=
        segInv_tail hinv hsd false
      have hfix2 : normSegs (!true) (s2 :: ss2) = s2 :: ss2 :=
        normSegs_fixed hinv2
      rw [hfix2]
      rw [win_assemble_cons _ _ _ hs2]
      rfl
  | cons y r' =>
    have hyns : isWinSep y = false :=
      (hgood (a :: ':' :: y :: r') (by simp)).2.2 y (by simp)
    -- q = a : ':' :: y :: t'
    have ht' : ∃ t', (if trail
        then joinSep '\\' ((a :: ':' :: y :: r') :: ss) ++ ['\\']
        else joinSep '\\' ((a :: ':' :: y :: r') :: ss))
        = a :: ':' :: y :: t' := by
      cases trail with
      | true =>
        refine ⟨(r' ++ (if ss = [] then [] else '\\' :: joinSep '\\' ss))
          ++ ['\\'], ?_⟩
        rw [if_pos rfl, hJ]
        simp
      | false =>
        refine ⟨r' ++ (if ss = [] then [] else '\\' :: joinSep '\\' ss), ?_⟩
        rw [if_neg (by simp), hJ]
        simp
    obtain ⟨t', ht'⟩ := ht'
    have hJr1 : joinSep '\\' ((y :: r') :: ss)
        = (y :: r') ++ (if ss = [] then []
            else '\\' :: joinSep '\\' ss) := joinSep_cons '\\' _ ss
    have hyt : (y :: t' : List Char)
        = (if trail then joinSep '\\' ((y :: r') :: ss) ++ ['\\']
            else joinSep '\\' ((y :: r') :: ss)) := by
      have h0 := ht'
      rw [hJ] at h0
      cases trail with
      | true =>
        rw [if_pos rfl]
        rw [if_pos rfl] at h0
        simp only [List.cons_append, List.append_assoc] at h0
        injection h0 with _ h1
        injection h1 with _ h2
        rw [← h2, hJr1]
        simp
      | false =>
        rw [if_neg (by simp)]
        rw [if_neg (by simp)] at h0
        simp only [List.cons_append] at h0
        injection h0 with _ h1
        injection h1 with _ h2
        rw [← h2, hJr1]
        simp
    have hrec1 : splitSegs isWinSep (joinSep '\\' ((y :: r') :: ss))
        = (y :: r') :: ss := by
      apply splitSegs_joinSep (by decide)
      intro u hu
      rcases List.mem_cons.mp hu with rfl | hu'
      · refine ⟨by simp, ?_⟩
        intro c hc
        refine (hgood (a :: ':' :: y :: r') (by simp)).2.2 c ?_
        rcases List.mem_cons.mp hc with rfl | hc'
        · simp
        · simp [hc']
      · exact ⟨(hgood u (by simp [hu'])).1, (hgood u (by simp [hu'])).2.2⟩
    have hsplitT : splitSegs isWinSep (y :: t') = (y :: r') :: ss := by
      rw [hyt]
      exact splitSegs_trail (by decide) hrec1 trail
    have hqval : win32.assemble none false trail ((a :: ':' :: y :: r') :: ss)
        = a :: ':' :: y :: t' := by
      rw [hq, ht']
    have hparse : win32.parseWinRoot (a :: ':' :: y :: t')
        = (some [a, ':'], false, y :: t') := by
      rw [parseWinRoot_drive hdl]
      simp [hyns]
    have hlast : win32.lastIsSep (a :: ':' :: y :: t') = trail := by
      rw [← ht']
      exact hlastT
    by_cases hdothead : (y :: r' : List Char) = ['.'] ∧ ss ≠ []
    · -- unstable: excluded by hsafe
      exfalso
      obtain ⟨hdot, hssne⟩ := hdothead
      have hquns : winReparseUnstable
          (win32.assemble none false trail ((a :: ':' :: y :: r') :: ss))
          = true := by
        rw [hqval]
        unfold winReparseUnstable
        rw [hparse]
        simp only [hsplitT]
        rw [hdot]
        simp [hssne]
      rw [hquns] at hsafe
      exact absurd hsafe (by simp)
    · rw [hqval, ← hqval]
      rw [win_normalize_eq hqne, hqval, hparse, hsplitT, hlast]
      by_cases hdot : (y :: r' : List Char) = ['.']
      · -- remainder is a lone `.`: the `.`-substitution reproduces it
        have hssnil : ss = [] := by
          by_contra hssne
          exact hdothead ⟨hdot, hssne⟩
        subst hssnil
        rw [hdot]
        have hfix1 : normSegs (!false) (['.'] :: []) = [] := by decide
        rw [hfix1]
        injection hdot with hyeq hreq
        subst hyeq
        subst hreq
        have ht'v : t' = (if trail then ['\\'] else []) := by
          have h0 := hyt
          rw [hJr1] at h0
          cases trail with
          | true =>
            rw [if_pos rfl] at h0 ⊢
            simp [joinSep] at h0
            simp [h0]
          | false =>
            rw [if_neg (by simp)] at h0 ⊢
            simp [joinSep] at h0
            simp [h0]
        rw [ht'v]
        cases trail with
        | true => simp [win32.assemble, joinSep]
        | false => simp [win32.assemble, joinSep]
      · -- ordinary stable case: the remainder re-normalizes to itself
        have hinv1 : SegInv isWinSep true ((y :: r') :: ss) :=
          segInv_replaceHead hinv hsd (by simp) hdot (by
            intro c hc
            refine (hgood (a :: ':' :: y :: r') (by simp)).2.2 c ?_
            rcases List.mem_cons.mp hc with rfl | hc'
            · simp
            · simp [hc'])
        have hfix1 : normSegs (!false) ((y :: r') :: ss) = (y :: r') :: ss :=
          normSegs_fixed hinv1
        rw [hfix1]
        rw [win_assemble_cons _ _ _ (by simp : (y :: r' : List Char) ≠ [])]
        rw [← hyt]
        rfl

/-- Fixed point of Windows `normalize` on assembled device-free forms, under
the stability guard. -/
theorem winFix_none (abs trail : Bool) (segs : List (List Char))
    (hinv : SegInv isWinSep (!abs) segs)
    (hsafe : winReparseUnstable (win32.assemble none abs trail segs)
      = false) :
    win32.normalize (win32.assemble none abs trail segs)
      = win32.assemble none abs trail segs := by
  cases segs with
  | nil =>
    cases abs <;> cases trail <;> decide
  | cons s ss =>
    have hgood := hinv.2
    have hs : s ≠ [] := (hgood s (by simp)).1
    obtain ⟨hJne, ⟨hc, Jt, hJeq, hcns⟩, ⟨lc, hlcJ, hlcns⟩, hrec⟩ :=
      segs_facts (by decide : isWinSep '\\' = true) hgood
    cases abs with
    | true =>
      have hq : win32.assemble none true trail (s :: ss)
          = '\\' :: (if trail then joinSep '\\' (s :: ss) ++ ['\\']
              else joinSep '\\' (s :: ss)) := by
        rw [win_assemble_cons _ _ _ hs]
        rfl
      rw [hq, ← hq]
      have hqne : win32.assemble none true trail (s :: ss) ≠ [] := by
        rw [hq]; simp
      rw [win_normalize_eq hqne, hq]
      have hT2 : ∃ cs, (if trail then joinSep '\\' (s :: ss) ++ ['\\']
          else joinSep '\\' (s :: ss)) = hc :: cs := by
        cases trail with
        | true => exact ⟨Jt ++ ['\\'], by rw [if_pos rfl, hJeq]; simp⟩
        | false => exact ⟨Jt, by rw [if_neg (by simp), hJeq]⟩
      obtain ⟨cs, hT2⟩ := hT2
      have hparse : win32.parseWinRoot
          ('\\' :: (if trail then joinSep '\\' (s :: ss) ++ ['\\']
            else joinSep '\\' (s :: ss)))
          = (none, true, (if trail then joinSep '\\' (s :: ss) ++ ['\\']
              else joinSep '\\' (s :: ss))) :=
        parseWinRoot_sep (Or.inr ⟨hc, cs, hT2, hcns⟩)
      rw [hparse]
      have hsplit : splitSegs isWinSep
          (if trail then joinSep '\\' (s :: ss) ++ ['\\']
            else joinSep '\\' (s :: ss)) = s :: ss :=
        splitSegs_trail (by decide) hrec trail
      rw [hsplit]
      have hlast : win32.lastIsSep
          ('\\' :: (if trail then joinSep '\\' (s :: ss) ++ ['\\']
            else joinSep '\\' (s :: ss))) = trail := by
        rw [show '\\' :: (if trail then joinSep '\\' (s :: ss) ++ ['\\']
            else joinSep '\\' (s :: ss))
          = ['\\'] ++ (if trail then joinSep '\\' (s :: ss) ++ ['\\']
            else joinSep '\\' (s :: ss)) from rfl]
        exact lastIsSep_calc _ hJne hlcJ hlcns trail
      rw [hlast]
      have hfix : normSegs (!true) (s :: ss) = s :: ss := normSegs_fixed hinv
      rw [hfix, hq]
    | false =>
      cases hse : s with
      | nil => exact absurd hse hs
      | cons a stail =>
        subst hse
        have hans : isWinSep a = false :=
          (hgood (a :: stail) (by simp)).2.2 a (by simp)
        have hJd : joinSep '\\' ((a :: stail) :: ss)
            = a :: (stail ++ (if ss = [] then []
                else '\\' :: joinSep '\\' ss)) := by
          rw [joinSep_cons]
          simp
        have hT2d : (if trail then joinSep '\\' ((a :: stail) :: ss) ++ ['\\']
            else joinSep '\\' ((a :: stail) :: ss))
            = a :: (if trail
                then (stail ++ (if ss = [] then []
                  else '\\' :: joinSep '\\' ss)) ++ ['\\']
                else stail ++ (if ss = [] then []
                  else '\\' :: joinSep '\\' ss)) := by
          cases trail with
          | true => rw [if_pos rfl, if_pos rfl, hJd]; simp
          | false => rw [if_neg (by simp), if_neg (by simp), hJd]
        -- the non-root re-parse conclusion, given the root test fails
        have nonroot_case :
            ((∀ t, (if trail
                then (stail ++ (if ss = [] then []
                  else '\\' :: joinSep '\\' ss)) ++ ['\\']
                else stail ++ (if ss = [] then []
                  else '\\' :: joinSep '\\' ss)) ≠ ':' :: t) ∨
              isDriveL a = false) →
            win32.normalize (win32.assemble none false trail
              ((a :: stail) :: ss))
              = win32.assemble none false trail ((a :: stail) :: ss) := by
          intro hcond
          apply winFix_rel_nonroot trail hinv
          rw [hT2d]
          exact parseWinRoot_nonroot hans hcond
        cases hst : stail with
        | nil =>
          subst hst
          apply nonroot_case
          left
          intro t hcontra
          cases hss : ss with
          | nil =>
            rw [hss] at hcontra
            cases trail with
            | true =>
              rw [if_pos rfl] at hcontra
              simp at hcontra
            | false =>
              rw [if_neg (by simp)] at hcontra
              simp at hcontra
          | cons s2 ss2 =>
            rw [hss] at hcontra
            cases trail with
            | true =>
              rw [if_pos rfl] at hcontra
              rw [show (([] : List Char) ++ (if ((s2 :: ss2 :
                  List (List Char)) = []) then []
                  else '\\' :: joinSep '\\' (s2 :: ss2))) ++ ['\\']
                = '\\' :: (joinSep '\\' (s2 :: ss2) ++ ['\\']) from by simp]
                at hcontra
              injection hcontra with h1 _
              exact absurd h1 (by decide)
            | false =>
              rw [if_neg (by simp)] at hcontra
              rw [show (([] : List Char) ++ (if ((s2 :: ss2 :
                  List (List Char)) = []) then []
                  else '\\' :: joinSep '\\' (s2 :: ss2)))
                = '\\' :: joinSep '\\' (s2 :: ss2) from by simp] at hcontra
              injection hcontra with h1 _
              exact absurd h1 (by decide)
        | cons x xs =>
          subst hst
          by_cases hx : x = ':'
          · subst hx
            by_cases hdl : isDriveL a = true
            · exact winFix_rel_drivelike a hdl xs ss trail hinv hsafe
            · apply nonroot_case
              right
              cases hv : isDriveL a with
              | true => exact absurd hv hdl
              | false => rfl
          · apply nonroot_case
            left
            intro t hcontra
            cases trail with
            | true =>
              rw [if_pos rfl] at hcontra
              rw [show ((x :: xs) ++ (if ss = [] then []
                  else '\\' :: joinSep '\\' ss)) ++ ['\\']
                = x :: ((xs ++ (if ss = [] then []
                  else '\\' :: joinSep '\\' ss)) ++ ['\\']) from by simp]
                at hcontra
              injection hcontra with h1 _
              exact hx h1
            | false =>
              rw [if_neg (by simp)] at hcontra
              rw [show ((x :: xs) ++ (if ss = [] then []
                  else '\\' :: joinSep '\\' ss))
                = x :: (xs ++ (if ss = [] then []
                  else '\\' :: joinSep '\\' ss)) from by simp] at hcontra
              injection hcontra with h1 _
              exact hx h1

/-- Fixed point of Windows `normalize` on every well-formed assembled form,
under the stability guard. -/
theorem win_assemble_fixed (device : Option (List Char)) (abs trail : Bool)
    (segs : List (List Char)) (hinv : SegInv isWinSep (!abs) segs)
    (hdev : device = none ∨
      (∃ l, device = some [l, ':'] ∧ isDriveL l = true) ∨
      (∃ server share,
        device = some ('\\' :: '\\' :: (server ++ '\\' :: share)) ∧
        server ≠ [] ∧ share ≠ [] ∧ (∀ c ∈ server, isWinSep c = false) ∧
        (∀ c ∈ share, isWinSep c = false) ∧ abs = true))
    (hsafe : winReparseUnstable (win32.assemble device abs trail segs)
      = false) :
    win32.normalize (win32.assemble device abs trail segs)
      = win32.assemble device abs trail segs := by
  rcases hdev with rfl | ⟨l, rfl, hdl⟩ | ⟨sv, sh, rfl, h1, h2, h3, h4, habs⟩
  · exact winFix_none abs trail segs hinv hsafe
  · exact winFix_drive l hdl abs trail segs hinv
  · subst habs
    exact winFix_unc sv sh trail segs (by simpa using hinv) h1 h2 h3 h4

/-- Windows `normalize` is idempotent away from the unstable outputs. -/
theorem win_normalize_idem (p : List Char)
    (hsafe : winReparseUnstable (win32.normalize p) = false) :
    win32.normalize (win32.normalize p) = win32.normalize p := by
  by_cases hp : p = []
  · subst hp; decide
  · have hsplitgood := splitSegs_good isWinSep (win32.parseWinRoot p).2.2
    have hinv : SegInv isWinSep (!(win32.parseWinRoot p).2.1)
        (normSegs (!(win32.parseWinRoot p).2.1)
          (splitSegs isWinSep (win32.parseWinRoot p).2.2)) :=
      normSegs_inv (by decide) _ (fun s hs => (hsplitgood s hs).2)
    rw [win_normalize_eq hp]
    rw [win_normalize_eq hp] at hsafe
    exact win_assemble_fixed _ _ _ _ hinv (parseWinRoot_shape p) hsafe

theorem posix_assemble_abs (T : Bool) (segs : List (List Char)) :
    posix.isAbsolute (posix.assemble true T segs) = true := by
  unfold posix.assemble
  dsimp only
  rw [if_pos rfl]
  rfl

theorem win_assemble_abs (device : Option (List Char)) (trail : Bool)
    (segs : List (List Char))
    (hdev : device = none ∨
      (∃ l, device = some [l, ':'] ∧ isDriveL l = true) ∨
      (∃ server share,
        device = some ('\\' :: '\\' :: (server ++ '\\' :: share)) ∧
        server ≠ [] ∧ share ≠ [] ∧ (∀ c ∈ server, isWinSep c = false) ∧
        (∀ c ∈ share, isWinSep c = false) ∧ True)) :
    win32.isAbsolute (win32.assemble device true trail segs) = true := by
  rcases hdev with rfl | ⟨l, rfl, hdl⟩ | ⟨sv, sh, rfl, _, _, _, _, _⟩
  · unfold win32.assemble
    dsimp only
    rw [if_pos rfl]
    rfl
  · have key : ∀ X : List Char,
        win32.isAbsolute (l :: ':' :: '\\' :: X) = true := by
      intro X
      unfold win32.isAbsolute
      dsimp only
      rw [if_neg (by simp [isDriveL_not_sep hdl])]
      have hv : isDriveL l && isWinSep '\\' = true := by
        rw [hdl]
        decide
      exact hv
    unfold win32.assemble
    dsimp only
    rw [if_pos rfl]
    exact key _
  · unfold win32.assemble
    dsimp only
    rw [if_pos rfl]
    rfl

theorem win_isAbsolute_parse {p : List Char}
    (h : win32.isAbsolute p = true) :
    (win32.parseWinRoot p).2.1 = true := by
  cases p with
  | nil => simp [win32.isAbsolute] at h
  | cons c rest =>
    rw [win32.parseWinRoot.eq_def]
    dsimp only
    by_cases hc : isWinSep c = true
    · rw [if_pos hc]
      cases rest with
      | nil => rfl
      | cons c2 rest2 =>
        dsimp only
        by_cases hc2 : isWinSep c2 = true
        · rw [if_pos hc2]
          by_cases hserver : rest2.takeWhile (fun x => !isWinSep x) = []
          · rw [if_pos hserver]
          · rw [if_neg hserver]
            cases hAfter : rest2.dropWhile (fun x => !isWinSep x) with
            | nil => rfl
            | cons a as =>
              dsimp only
              by_cases hshare : ((a :: as).dropWhile isWinSep).takeWhile
                  (fun x => !isWinSep x) = []
              · rw [if_pos hshare]
              · rw [if_neg hshare]
        · rw [if_neg hc2]
    · unfold win32.isAbsolute at h
      dsimp only at h
      rw [if_neg (by simp [hc])] at h
      split at h
      · rename_i s rest3
        rw [Bool.and_eq_true] at h
        rw [if_neg (by simp [hc])]
        split
        · rename_i rest2 heq
          injection heq with _ h2
          subst h2
          rw [if_pos h.1]
          exact h.2
        · rename_i hne
          exact absurd rfl (hne (s :: rest3))
      · exact absurd h (by simp)

end WinNormLemmas

section ClaimC2

open PathCore

/-- Claim C2 counterexample: `normalize` of the Windows grammar is not
idempotent: on `.\C:` one application yields `C:` and a second yields
`C:.`. -/
theorem C2_normalize_idem_cex :
    win32.normalize (win32.normalize ".\\C:".data)
      ≠ win32.normalize ".\\C:".data := by decide

/-- Claim C2 (amended): `normalize` is idempotent on every POSIX path, and on
every Windows path whose normalized form is not an unstable drive-relative
result (a bare `X:`, or `X:.` followed by further segments, produced without
a drive root). -/
theorem C2_normalize_idem_amended (p : List Char) :
    posix.normalize (posix.normalize p) = posix.normalize p ∧
    (winReparseUnstable (win32.normalize p) = false →
      win32.normalize (win32.normalize p) = win32.normalize p) :=
  ⟨posix_normalize_idem p, win_normalize_idem p⟩

/-- Witness for C2 at concrete inputs. -/
theorem C2_normalize_idem_witness :
    posix.normalize (posix.normalize "/a/../b/".data)
        = posix.normalize "/a/../b/".data ∧
    win32.normalize (win32.normalize "C:\\a\\..\\b".data)
        = win32.normalize "C:\\a\\..\\b".data :=
  ⟨(C2_normalize_idem_amended "/a/../b/".data).1,
   (C2_normalize_idem_amended "C:\\a\\..\\b".data).2 (by decide)⟩

end ClaimC2

section ClaimC4

/-- Claim C4: POSIX `isAbsolute` returns true iff the first character of
the path is `/`; in particular it returns false on the empty path. -/
theorem C4_posix_isAbsolute_iff_slash :
    (∀ p : List Char, posix.isAbsolute p = true ↔ ∃ t, p = '/' :: t) ∧
    posix.isAbsolute [] = false := by
  constructor
  · intro p
    cases p with
    | nil => simp [posix.isAbsolute]
    | cons c t =>
      constructor
      · intro h
        have hc : c = '/' := by
          simp [posix.isAbsolute] at h
          exact h
        exact ⟨t, by rw [hc]⟩
      · rintro ⟨t', ht⟩
        injection ht with h1 h2
        simp [posix.isAbsolute, h1]
  · rfl

end ClaimC4

section ClaimC5

open PathCore

/-- Claim C5: in both grammars, `normalize` maps absolute paths to absolute
paths. -/
theorem C5_normalize_preserves_absolute (p : List Char) :
    (posix.isAbsolute p = true → posix.isAbsolute (posix.normalize p) = true) ∧
    (win32.isAbsolute p = true → win32.isAbsolute (win32.normalize p) = true) := by
  constructor
  · intro habs
    have hp : p ≠ [] := by
      intro he; rw [he] at habs; exact absurd habs (by decide)
    rw [posix_normalize_eq hp, habs]
    exact posix_assemble_abs _ _
  · intro habs
    have hp : p ≠ [] := by
      intro he; rw [he] at habs; exact absurd habs (by decide)
    have hroot := win_isAbsolute_parse habs
    rw [win_normalize_eq hp, hroot]
    apply win_assemble_abs
    rcases parseWinRoot_shape p with h | ⟨l, h1, h2⟩ | ⟨sv, sh, h1, h2, h3, h4, h5, _⟩
    · exact Or.inl h
    · exact Or.inr (Or.inl ⟨l, h1, h2⟩)
    · exact Or.inr (Or.inr ⟨sv, sh, h1, h2, h3, h4, h5, trivial⟩)

/-- Witness for C5 at concrete absolute inputs. -/
theorem C5_normalize_preserves_absolute_witness :
    posix.isAbsolute (posix.normalize "/a/../b".data) = true ∧
    win32.isAbsolute (win32.normalize "C:\\a".data) = true :=
  ⟨(C5_normalize_preserves_absolute "/a/../b".data).1 (by decide),
   (C5_normalize_preserves_absolute "C:\\a".data).2 (by decide)⟩

end ClaimC5

section ClaimC6

open PathCore

/-- Claim C6: in both grammars `join` of no segments, or of only empty
segments, is `.`; otherwise it concatenates the retained segments with the
grammar separator and passes the result through `normalize`. -/
theorem C6_join_contract (xs : List (List Char)) :
    (posix.join [] = ['.'] ∧ win32.join [] = ['.']) ∧
    ((∀ s ∈ xs, s = []) → posix.join xs = ['.'] ∧ win32.join xs = ['.']) ∧
    (xs.filter (fun s => decide (s ≠ [])) ≠ [] →
      posix.join xs
          = posix.normalize (joinSep '/' (xs.filter (fun s => decide (s ≠ [])))) ∧
      win32.join xs
          = win32.normalize (joinSep '\\' (xs.filter (fun s => decide (s ≠ []))))) := by
  refine ⟨⟨rfl, rfl⟩, ?_, ?_⟩
  · intro h
    have hf : xs.filter (fun s => decide (s ≠ [])) = [] := by
      rw [List.filter_eq_nil_iff]
      intro a ha
      simp [h a ha]
    constructor
    · unfold posix.join; rw [if_pos hf]
    · unfold win32.join; rw [if_pos hf]
  · intro h
    constructor
    · unfold posix.join; rw [if_neg h]
    · unfold win32.join; rw [if_neg h]

/-- Witness for C6 at concrete inputs. -/
theorem C6_join_contract_witness :
    posix.join [[], []] = ['.'] ∧ win32.join [[], []] = ['.'] ∧
    posix.join ["a".data, "b".data] = posix.normalize "a/b".data ∧
    win32.join ["a".data, "b".data] = win32.normalize "a\\b".data := by
  refine ⟨((C6_join_contract [[], []]).2.1 (by decide)).1,
    ((C6_join_contract [[], []]).2.1 (by decide)).2, ?_, ?_⟩
  · have h := ((C6_join_contract ["a".data, "b".data]).2.2 (by decide)).1
    rw [h]
    rfl
  · have h := ((C6_join_contract ["a".data, "b".data]).2.2 (by decide)).2
    rw [h]
    rfl

end ClaimC6

section ClaimC9

open PathCore

/-- Claim C9 counterexample: on `..` the last dot of the base is not the
base's first character, yet POSIX `extname` returns the empty extension
rather than `.`. -/
theorem C9_extname_cex :
    posix.extname "..".data ≠ ".".data ∧ posix.extname "..".data = [] := by
  decide

/-- Claim C9 (amended): POSIX `extname` returns the suffix of the base name
from its last dot when that dot is not the base's first character and the
base is not `..`; it returns the empty extension when the base is `..` or
has no dot past its first character; in particular `.gitignore` has no
extension and `index.ts` has extension `.ts`. -/
theorem C9_extname_amended :
    (∀ p pre suf : List Char, posix.baseOf p = pre ++ '.' :: suf →
      pre ≠ [] → '.' ∉ suf → posix.baseOf p ≠ dotdot →
      posix.extname p = '.' :: suf) ∧
    (∀ p : List Char,
      posix.baseOf p = dotdot ∨ '.' ∉ (posix.baseOf p).drop 1 →
      posix.extname p = []) ∧
    posix.extname ".gitignore".data = [] ∧
    posix.extname "index.ts".data = ".ts".data := by
  refine ⟨?_, ?_, by decide, by decide⟩
  · intro p pre suf hb hpre hsuf hdd
    have hmem : '.' ∈ posix.baseOf p := by
      rw [hb]
      exact List.mem_append_right _ (List.mem_cons_self _ _)
    have hrev : (posix.baseOf p).reverse = suf.reverse ++ '.' :: pre.reverse := by
      rw [hb, List.reverse_append, List.reverse_cons, List.append_assoc]
      rfl
    have hpos : ∀ a ∈ suf.reverse, (fun c => decide (c ≠ '.')) a = true := by
      intro a ha
      simp only [List.mem_reverse] at ha
      simp only [decide_eq_true_eq]
      intro he
      rw [he] at ha
      exact hsuf ha
    have h2 : List.takeWhile (fun c => decide (c ≠ '.')) ('.' :: pre.reverse)
        = [] := by
      simp [List.takeWhile_cons]
    have hafter : (posix.baseOf p).reverse.takeWhile (fun c => decide (c ≠ '.'))
        = suf.reverse := by
      rw [hrev, List.takeWhile_append_of_pos hpos, h2, List.append_nil]
    have hidx : (posix.baseOf p).length - suf.reverse.length - 1 = pre.length := by
      rw [hb, List.length_reverse, List.length_append, List.length_cons]
      omega
    have hpre0 : ¬pre.length = 0 := by
      intro h0
      exact hpre (List.length_eq_zero.mp h0)
    unfold posix.extname
    rw [if_neg hdd, if_pos hmem, hafter, hidx, if_neg hpre0,
      List.reverse_reverse]
  · intro p hcase
    by_cases hdd : posix.baseOf p = dotdot
    · unfold posix.extname
      rw [if_pos hdd]
    · have hdrop : '.' ∉ (posix.baseOf p).drop 1 := by
        rcases hcase with h | h
        · exact absurd h hdd
        · exact h
      by_cases hmem : '.' ∈ posix.baseOf p
      · obtain ⟨c, t, hct⟩ : ∃ c t, posix.baseOf p = c :: t := by
          cases hbp : posix.baseOf p with
          | nil => rw [hbp] at hmem; simp at hmem
          | cons c t => exact ⟨c, t, rfl⟩
        have ht : '.' ∉ t := by
          intro hx
          apply hdrop
          rw [hct]
          simpa using hx
        have hc : c = '.' := by
          rcases List.mem_cons.mp (hct ▸ hmem) with h | h
          · exact h.symm
          · exact absurd h ht
        have hpos : ∀ a ∈ t.reverse, (fun c => decide (c ≠ '.')) a = true := by
          intro a ha
          simp only [List.mem_reverse] at ha
          simp only [decide_eq_true_eq]
          intro he
          rw [he] at ha
          exact ht ha
        have hneg : ¬((fun c => decide (c ≠ '.')) '.' = true) := by decide
        have hrev : (posix.baseOf p).reverse = t.reverse ++ ['.'] := by
          rw [hct, hc, List.reverse_cons]
        have h2 : List.takeWhile (fun c => decide (c ≠ '.')) ['.'] = [] := by
          simp [List.takeWhile_cons]
        have hafter : (posix.baseOf p).reverse.takeWhile (fun c => decide (c ≠ '.'))
            = t.reverse := by
          rw [hrev, List.takeWhile_append_of_pos hpos, h2, List.append_nil]
        have hidx : (posix.baseOf p).length - t.reverse.length - 1 = 0 := by
          rw [hct, List.length_reverse, List.length_cons]
          omega
        unfold posix.extname
        rw [if_neg hdd, if_pos hmem, hafter, hidx, if_pos rfl]
      · unfold posix.extname
        rw [if_neg hdd, if_neg hmem]

/-- Witness for C9 at concrete inputs. -/
theorem C9_extname_amended_witness :
    posix.extname "a/b.c.txt".data = ".txt".data ∧
    posix.extname "/x/.bashrc".data = [] :=
  ⟨C9_extname_amended.1 "a/b.c.txt".data "b.c".data "txt".data
      (by decide) (by decide) (by decide) (by decide),
   C9_extname_amended.2.1 "/x/.bashrc".data (by decide)⟩

end ClaimC9

section PercentLemmas

open PathCore

theorem needsEnc_lt {c : Char} (h : needsEnc c = true) : c.toNat < 128 := by
  simp only [needsEnc, decide_eq_true_eq] at h
  rcases h with h | h | h | h | h | h
  · rw [h]; decide
  · rw [h]; decide
  · rw [h]; decide
  · rw [h]; decide
  · rw [h]; decide
  · omega

theorem hexDig_facts (n : Nat) (h : n < 16) :
    isHexDigit (hexDig n) = true ∧ hexVal (hexDig n) = n ∧
      mapBack (hexDig n) = hexDig n ∧ hexDig n ≠ '%' := by
  interval_cases n <;> decide

theorem percentEncode_cons (c : Char) (l : List Char) :
    percentEncode (c :: l) = encChar c ++ percentEncode l := by
  simp [percentEncode]

theorem percentDecode_cons_ne {c : Char} (h : c ≠ '%') (l : List Char) :
    percentDecode (c :: l) = c :: percentDecode l := by
  rw [percentDecode.eq_def]
  dsimp only
  rw [if_neg h]

theorem percentDecode_pct {h1 h2 : Char} (e1 : isHexDigit h1 = true)
    (e2 : isHexDigit h2 = true) (l : List Char) :
    percentDecode ('%' :: h1 :: h2 :: l)
      = Char.ofNat (16 * hexVal h1 + hexVal h2) :: percentDecode l := by
  have hb : (isHexDigit h1 && isHexDigit h2) = true := by
    rw [e1, e2]
    rfl
  rw [percentDecode.eq_def]
  dsimp only
  rw [if_pos rfl]
  rw [if_pos hb]

theorem percentDecode_encChar (c : Char) (l : List Char) :
    percentDecode (encChar c ++ l) = c :: percentDecode l := by
  by_cases h : needsEnc c = true
  · have hlt : c.toNat < 128 := needsEnc_lt h
    have hhi : c.toNat / 16 < 16 := by omega
    have hlo : c.toNat % 16 < 16 := Nat.mod_lt _ (by omega)
    have f1 := hexDig_facts _ hhi
    have f2 := hexDig_facts _ hlo
    unfold encChar
    rw [if_pos h]
    rw [show (['%', hexDig (c.toNat / 16), hexDig (c.toNat % 16)] ++ l)
        = '%' :: hexDig (c.toNat / 16) :: hexDig (c.toNat % 16) :: l from rfl]
    rw [percentDecode_pct f1.1 f2.1]
    rw [f1.2.1, f2.2.1, Nat.div_add_mod, Char.ofNat_toNat]
  · have hne : c ≠ '%' := by
      intro he
      rw [he] at h
      exact h (by decide)
    unfold encChar
    rw [if_neg h]
    exact percentDecode_cons_ne hne l

theorem percentDecode_percentEncode (p : List Char) :
    percentDecode (percentEncode p) = p := by
  induction p with
  | nil => rfl
  | cons c rest ih =>
    rw [percentEncode_cons, percentDecode_encChar, ih]

theorem encChar_map_mapBack {c : Char} (h : c ≠ '/') :
    (encChar c).map mapBack = encChar c := by
  by_cases he : needsEnc c = true
  · have hlt := needsEnc_lt he
    have hhi : c.toNat / 16 < 16 := by omega
    have hlo : c.toNat % 16 < 16 := Nat.mod_lt _ (by omega)
    unfold encChar
    rw [if_pos he]
    simp only [List.map]
    rw [(hexDig_facts _ hhi).2.2.1, (hexDig_facts _ hlo).2.2.1]
    rfl
  · have hm : mapBack c = c := by
      unfold mapBack
      rw [if_neg h]
    unfold encChar
    rw [if_neg he]
    simp only [List.map, hm]

theorem decode_encode_winmap {p : List Char} (h : '/' ∉ p) :
    percentDecode ((percentEncode (p.map mapTo)).map mapBack) = p := by
  induction p with
  | nil => rfl
  | cons c rest ih =>
    have hc : c ≠ '/' := by
      intro he
      rw [he] at h
      exact h (List.mem_cons_self _ _)
    have hrest : '/' ∉ rest := by
      intro hx
      exact h (List.mem_cons_of_mem _ hx)
    rw [List.map_cons, percentEncode_cons, List.map_append]
    by_cases hbs : c = '\\'
    · subst hbs
      rw [show mapTo '\\' = '/' from rfl]
      rw [show encChar '/' = ['/'] from by decide]
      rw [show (['/'] : List Char).map mapBack = ['\\'] from by decide]
      rw [List.singleton_append]
      rw [percentDecode_cons_ne (show ('\\' : Char) ≠ '%' by decide)]
      rw [ih hrest]
    · have hmt : mapTo c = c := by
        unfold mapTo
        rw [if_neg hbs]
      rw [hmt, encChar_map_mapBack hc, percentDecode_encChar, ih hrest]

end PercentLemmas

section ClaimC7

open PathCore

/-- Claim C7: POSIX `fromFileUrl` errors exactly when the scheme is not
`file` (with `InvalidUrlScheme`); on success it percent-decodes the URL
path component, and a path component starting with `/` yields a result
starting with `/`. -/
theorem C7_posix_fromFileUrl_contract (u : Url) :
    ((∃ e, posix.fromFileUrl u = Except.error e) ↔ u.scheme ≠ "file".data) ∧
    (u.scheme ≠ "file".data →
      posix.fromFileUrl u = Except.error PathError.InvalidUrlScheme) ∧
    (u.scheme = "file".data →
      posix.fromFileUrl u = Except.ok (percentDecode u.pathname) ∧
      (u.pathname.head? = some '/' →
        posix.isAbsolute (percentDecode u.pathname) = true)) := by
  refine ⟨⟨?_, ?_⟩, ?_, ?_⟩
  · rintro ⟨e, he⟩ hs
    unfold posix.fromFileUrl at he
    rw [if_pos hs] at he
    exact Except.noConfusion he
  · intro hs
    refine ⟨PathError.InvalidUrlScheme, ?_⟩
    unfold posix.fromFileUrl
    rw [if_neg hs]
  · intro hs
    unfold posix.fromFileUrl
    rw [if_neg hs]
  · intro hs
    constructor
    · unfold posix.fromFileUrl
      rw [if_pos hs]
    · intro hhead
      cases hp : u.pathname with
      | nil =>
        rw [hp] at hhead
        exact absurd hhead (by simp)
      | cons c t =>
        rw [hp] at hhead
        have hc : c = '/' := by
          simp [List.head?] at hhead
          exact hhead
        rw [hc, percentDecode_cons_ne (show ('/' : Char) ≠ '%' by decide)]
        rfl

/-- Witness for C7 at concrete URLs. -/
theorem C7_posix_fromFileUrl_contract_witness :
    posix.fromFileUrl ⟨"file".data, [], "/a%20b".data⟩
        = Except.ok (PathCore.percentDecode "/a%20b".data) ∧
    posix.isAbsolute (PathCore.percentDecode "/a%20b".data) = true ∧
    posix.fromFileUrl ⟨"http".data, [], "/x".data⟩
        = Except.error PathCore.PathError.InvalidUrlScheme :=
  ⟨((C7_posix_fromFileUrl_contract ⟨"file".data, [], "/a%20b".data⟩).2.2
      rfl).1,
   ((C7_posix_fromFileUrl_contract ⟨"file".data, [], "/a%20b".data⟩).2.2
      rfl).2 rfl,
   (C7_posix_fromFileUrl_contract ⟨"http".data, [], "/x".data⟩).2.1
      (by decide)⟩

end ClaimC7

section ClaimC8

open PathCore

/-- Claim C8: POSIX `toFileUrl` errors exactly when the path is not
absolute (with `NotAbsolutePath`); on success it returns a `file` URL with
empty authority whose path component is the percent-encoding of the
input. -/
theorem C8_posix_toFileUrl_contract (p : List Char) :
    ((∃ e, posix.toFileUrl p = Except.error e) ↔ posix.isAbsolute p = false) ∧
    (posix.isAbsolute p = false →
      posix.toFileUrl p = Except.error PathError.NotAbsolutePath) ∧
    (posix.isAbsolute p = true →
      posix.toFileUrl p = Except.ok ⟨"file".data, [], percentEncode p⟩) := by
  refine ⟨⟨?_, ?_⟩, ?_, ?_⟩
  · rintro ⟨e, he⟩
    cases h : posix.isAbsolute p with
    | false => rfl
    | true =>
      unfold posix.toFileUrl at he
      rw [if_pos h] at he
      exact Except.noConfusion he
  · intro h
    refine ⟨PathError.NotAbsolutePath, ?_⟩
    unfold posix.toFileUrl
    rw [if_neg (by simp [h])]
  · intro h
    unfold posix.toFileUrl
    rw [if_neg (by simp [h])]
  · intro h
    unfold posix.toFileUrl
    rw [if_pos h]

/-- Witness for C8 at concrete paths. -/
theorem C8_posix_toFileUrl_contract_witness :
    posix.toFileUrl "/a b".data
        = Except.ok ⟨"file".data, [], PathCore.percentEncode "/a b".data⟩ ∧
    posix.toFileUrl "rel/x".data
        = Except.error PathCore.PathError.NotAbsolutePath :=
  ⟨(C8_posix_toFileUrl_contract "/a b".data).2.2 (by decide),
   (C8_posix_toFileUrl_contract "rel/x".data).2.1 (by decide)⟩

end ClaimC8

section ClaimC3

open PathCore

theorem winFromFileUrl_enc {p : List Char} (hnp : '/' ∉ p)
    (hdc : win32.driveCheck p = Except.ok p) :
    win32.fromFileUrl ⟨"file".data, [], win32.toUrlPath p⟩ = Except.ok p := by
  unfold win32.fromFileUrl
  rw [if_pos rfl]
  dsimp only
  unfold win32.toUrlPath
  rw [decode_encode_winmap hnp, hdc]
  rfl

theorem winFromFileUrl_enc_host {host after : List Char} (hh : host ≠ [])
    (hna : '/' ∉ after) (hdc : win32.driveCheck after = Except.ok after) :
    win32.fromFileUrl ⟨"file".data, host, win32.toUrlPath after⟩
      = Except.ok ('\\' :: '\\' :: (host ++ after)) := by
  unfold win32.fromFileUrl
  rw [if_pos rfl]
  dsimp only
  unfold win32.toUrlPath
  rw [decode_encode_winmap hna, hdc]
  dsimp only
  rw [if_neg hh]

/-- Claim C3 counterexample: `/a` is absolute in the Windows grammar, yet
the Windows URL round trip rewrites its separator, returning `\a`. -/
theorem C3_fileUrl_roundtrip_cex :
    win32.isAbsolute "/a".data = true ∧
    (win32.toFileUrl "/a".data).bind win32.fromFileUrl
      ≠ Except.ok "/a".data := by
  refine ⟨by decide, ?_⟩
  have hval : (win32.toFileUrl "/a".data).bind win32.fromFileUrl
      = Except.ok "\\a".data := rfl
  rw [hval]
  intro h
  injection h with h2
  exact absurd h2 (by decide)

/-- Claim C3 (amended): the URL round-trip law holds for every absolute
POSIX path, and for Windows paths written with `\` separators in the
canonical shapes: drive-rooted paths, single-separator-rooted paths whose
root is not drive-like, and UNC paths with a well-formed hostname. -/
theorem C3_fileUrl_roundtrip_amended :
    (∀ p : List Char, posix.isAbsolute p = true →
      (posix.toFileUrl p).bind posix.fromFileUrl = Except.ok p) ∧
    (∀ (l : Char) (r : List Char), isDriveL l = true → '/' ∉ r →
      (win32.toFileUrl (l :: ':' :: '\\' :: r)).bind win32.fromFileUrl
        = Except.ok (l :: ':' :: '\\' :: r)) ∧
    (∀ r : List Char, '/' ∉ r →
      (∀ b, r.head? = some b → isWinSep b = false) →
      win32.driveCheck ('\\' :: r) = Except.ok ('\\' :: r) →
      (win32.toFileUrl ('\\' :: r)).bind win32.fromFileUrl
        = Except.ok ('\\' :: r)) ∧
    (∀ host after : List Char, host ≠ [] →
      (∀ c ∈ host, isWinSep c = false) → '/' ∉ after →
      win32.uncLook after = true →
      win32.driveCheck after = Except.ok after →
      (win32.toFileUrl ('\\' :: '\\' :: (host ++ after))).bind win32.fromFileUrl
        = Except.ok ('\\' :: '\\' :: (host ++ after))) := by
  refine ⟨?_, ?_, ?_, ?_⟩
  · intro p habs
    unfold posix.toFileUrl
    rw [if_pos habs]
    show posix.fromFileUrl ⟨"file".data, [], percentEncode p⟩ = Except.ok p
    unfold posix.fromFileUrl
    rw [if_pos rfl, percentDecode_percentEncode]
  · intro l r hdl hnr
    have hlsep : isWinSep l = false := isDriveL_not_sep hdl
    have hlne : l ≠ '/' := by
      intro he
      rw [he] at hlsep
      exact absurd hlsep (by decide)
    have hlbs : l ≠ '\\' := by
      intro he
      rw [he] at hlsep
      exact absurd hlsep (by decide)
    have hnp : '/' ∉ (l :: ':' :: '\\' :: r) := by
      intro hm
      rcases List.mem_cons.mp hm with h | hm2
      · exact hlne h.symm
      rcases List.mem_cons.mp hm2 with h | hm3
      · exact absurd h (by decide)
      rcases List.mem_cons.mp hm3 with h | hm4
      · exact absurd h (by decide)
      · exact hnr hm4
    have habs : win32.isAbsolute (l :: ':' :: '\\' :: r) = true := by
      unfold win32.isAbsolute
      dsimp only
      rw [if_neg (by simp [hlsep])]
      have hv : isDriveL l && isWinSep '\\' = true := by
        rw [hdl]
        decide
      exact hv
    have hdc : win32.driveCheck (l :: ':' :: '\\' :: r)
        = Except.ok (l :: ':' :: '\\' :: r) := by
      unfold win32.driveCheck
      rw [List.dropWhile_cons_of_neg (by simp [hlbs])]
      show (if (('\\' :: r : List Char) = [] ∨ ('\\' :: r).head? = some '\\')
          then (if isDriveL l then Except.ok (l :: ':' :: '\\' :: r)
            else Except.error PathError.InvalidDriveLetter)
          else Except.ok (l :: ':' :: '\\' :: r))
        = Except.ok (l :: ':' :: '\\' :: r)
      have hor : (('\\' :: r : List Char) = [] ∨ ('\\' :: r).head? = some '\\') :=
        Or.inr rfl
      rw [if_pos hor, if_pos hdl]
    have htf : win32.toFileUrl (l :: ':' :: '\\' :: r)
        = Except.ok ⟨"file".data, [],
            win32.toUrlPath (l :: ':' :: '\\' :: r)⟩ := by
      unfold win32.toFileUrl
      rw [if_neg (by simp [habs])]
      dsimp only
      have hcond : ¬((isWinSep l && isWinSep ':') = true) := by
        rw [hlsep]
        simp
      rw [if_neg hcond]
    rw [htf]
    show win32.fromFileUrl
        ⟨"file".data, [], win32.toUrlPath (l :: ':' :: '\\' :: r)⟩
      = Except.ok (l :: ':' :: '\\' :: r)
    exact winFromFileUrl_enc hnp hdc
  · intro r hnr hhead hdc
    have hnp : '/' ∉ ('\\' :: r) := by
      intro hm
      rcases List.mem_cons.mp hm with h | hm2
      · exact absurd h (by decide)
      · exact hnr hm2
    have htf : win32.toFileUrl ('\\' :: r)
        = Except.ok ⟨"file".data, [], win32.toUrlPath ('\\' :: r)⟩ := by
      cases r with
      | nil => rfl
      | cons b r2 =>
        have hb : isWinSep b = false := hhead b rfl
        have habs : win32.isAbsolute ('\\' :: b :: r2) = true := by
          unfold win32.isAbsolute
          dsimp only
          rw [if_pos (by decide : isWinSep '\\' = true)]
        unfold win32.toFileUrl
        rw [if_neg (by simp [habs])]
        dsimp only
        have hcond : ¬((isWinSep '\\' && isWinSep b) = true) := by
          rw [hb, Bool.and_false]
          exact Bool.false_ne_true
        rw [if_neg hcond]
    rw [htf]
    show win32.fromFileUrl ⟨"file".data, [], win32.toUrlPath ('\\' :: r)⟩
      = Except.ok ('\\' :: r)
    exact winFromFileUrl_enc hnp hdc
  · intro host after hh hhost hna hunc hdc
    obtain ⟨a0, after2, hae⟩ : ∃ a0 after2, after = a0 :: after2 := by
      cases after with
      | nil => simp [win32.uncLook] at hunc
      | cons x y => exact ⟨x, y, rfl⟩
    subst hae
    have ha0 : isWinSep a0 = true := by
      unfold win32.uncLook at hunc
      rw [Bool.and_eq_true] at hunc
      exact hunc.1
    have hpos : ∀ a ∈ host, (fun c => !isWinSep c) a = true := by
      intro a ha
      simp [hhost a ha]
    have h2 : List.takeWhile (fun c => !isWinSep c) (a0 :: after2) = [] := by
      simp [List.takeWhile_cons, ha0]
    have h3 : List.dropWhile (fun c => !isWinSep c) (a0 :: after2)
        = a0 :: after2 := by
      simp [List.dropWhile_cons, ha0]
    have htake : (host ++ a0 :: after2).takeWhile (fun c => !isWinSep c)
        = host := by
      rw [List.takeWhile_append_of_pos hpos, h2, List.append_nil]
    have hdrop : (host ++ a0 :: after2).dropWhile (fun c => !isWinSep c)
        = a0 :: after2 := by
      rw [List.dropWhile_append_of_pos hpos, h3]
    have habs : win32.isAbsolute ('\\' :: '\\' :: (host ++ a0 :: after2))
        = true := by
      unfold win32.isAbsolute
      dsimp only
      rw [if_pos (by decide : isWinSep '\\' = true)]
    have htf : win32.toFileUrl ('\\' :: '\\' :: (host ++ a0 :: after2))
        = Except.ok ⟨"file".data, host, win32.toUrlPath (a0 :: after2)⟩ := by
      unfold win32.toFileUrl
      rw [if_neg (by simp [habs])]
      dsimp only
      rw [if_pos (by decide : (isWinSep '\\' && isWinSep '\\') = true)]
      rw [htake, hdrop]
      have hcondb : (win32.uncLook (a0 :: after2)
          && decide (host ≠ [])) = true := by
        rw [hunc, Bool.true_and, decide_eq_true_eq]
        exact hh
      rw [if_pos hcondb]
    rw [htf]
    show win32.fromFileUrl
        ⟨"file".data, host, win32.toUrlPath (a0 :: after2)⟩
      = Except.ok ('\\' :: '\\' :: (host ++ a0 :: after2))
    exact winFromFileUrl_enc_host hh hna hdc

/-- Witness for C3 at concrete paths of each covered shape. -/
theorem C3_fileUrl_roundtrip_amended_witness :
    (posix.toFileUrl "/home/foo".data).bind posix.fromFileUrl
        = Except.ok "/home/foo".data ∧
    (win32.toFileUrl "C:\\Users\\foo".data).bind win32.fromFileUrl
        = Except.ok "C:\\Users\\foo".data ∧
    (win32.toFileUrl "\\home\\foo".data).bind win32.fromFileUrl
        = Except.ok "\\home\\foo".data ∧
    (win32.toFileUrl "\\\\srv\\share\\x".data).bind win32.fromFileUrl
        = Except.ok "\\\\srv\\share\\x".data := by
  refine ⟨C3_fileUrl_roundtrip_amended.1 "/home/foo".data (by decide),
    ?_, ?_, ?_⟩
  · exact C3_fileUrl_roundtrip_amended.2.1 'C' "Users\\foo".data
      (by decide) (by decide)
  · refine C3_fileUrl_roundtrip_amended.2.2.1 "home\\foo".data (by decide)
      ?_ rfl
    intro b hb
    injection hb with h1
    rw [← h1]
    decide
  · exact C3_fileUrl_roundtrip_amended.2.2.2 "srv".data "\\share\\x".data
      (by decide) (by decide) (by decide) (by decide) rfl

end ClaimC3

section ClaimC1

open PathCore

/-- Claim C1: Windows `relative` on arguments whose resolved forms carry
case-insensitively different devices fails with `CrossDeviceRelative` and
never returns a best-effort or absolute path. -/
theorem C1_relative_cross_device (src dst : List Char)
    (h : win32.lowerDev (win32.parseWinRoot (win32.resolve [src])).1
        ≠ win32.lowerDev (win32.parseWinRoot (win32.resolve [dst])).1) :
    win32.relative src dst = Except.error PathError.CrossDeviceRelative := by
  have hne : ¬(win32.resolve [src] = win32.resolve [dst]) := by
    intro he
    rw [he] at h
    exact h rfl
  unfold win32.relative
  rw [if_neg hne, if_pos h]

/-- Witness for C1: `relative` of `C:\a\b` and `D:\a\b` fails with
`CrossDeviceRelative`. -/
theorem C1_relative_cross_device_witness :
    win32.relative "C:\\a\\b".data "D:\\a\\b".data
      = Except.error PathCore.PathError.CrossDeviceRelative :=
  C1_relative_cross_device "C:\\a\\b".data "D:\\a\\b".data (by decide)

end ClaimC1

section ClaimC10

/-- Claim C10: the facade equals the Windows core when the platform flag is
true and the POSIX core otherwise; both cores are re-exported
unconditionally regardless of the flag; and the facade separator always
equals the `SEP` constant derived from the same flag. -/
theorem C10_facade_dispatch (b : Bool) :
    (b = true → pathFacade b = win32Api) ∧
    (b = false → pathFacade b = posixApi) ∧
    exportedPosix b = posixApi ∧ exportedWin32 b = win32Api ∧
    (pathFacade b).sep = SEP b := by
  cases b with
  | false => exact ⟨fun h => Bool.noConfusion h, fun _ => rfl, rfl, rfl, rfl⟩
  | true => exact ⟨fun _ => rfl, fun h => Bool.noConfusion h, rfl, rfl, rfl⟩

/-- Witness for C10 at both flag values. -/
theorem C10_facade_dispatch_witness :
    pathFacade true = win32Api ∧ pathFacade false = posixApi :=
  ⟨(C10_facade_dispatch true).1 rfl, (C10_facade_dispatch false).2.1 rfl⟩

end ClaimC10
